import Mathlib

set_option autoImplicit false

/-!
Verification of the node address-space / session layer of a Python DSLink SDK.

The development shallowly embeds `dslink/Node.py` and `dslink/DSLink.py`:
Python strings become `List Char`, Python dicts and `OrderedDict`s become
insertion-ordered association lists, fallible operations return `Option`,
and methods that mutate `self` become functions returning the new node.
The `Value` class (file `dslink/Value.py`) is not part of the sources; it is
modelled from the specification where noted.
-/

namespace DSLinkPy

/-- Python strings are modelled as lists of characters. -/
abbrev Str := List Char

/-- JSON-style values stored in config entries, attributes and node values. -/
inductive JVal where
  | str (s : Str)
  | int (n : Int)
  | bool (b : Bool)
  | null
  | arr (elems : List JVal)
  | obj (fields : List (Str × JVal))

instance : Inhabited JVal := ⟨JVal.null⟩

mutual

/-- Structural equality test on JSON values (Python `==` on plain data). -/
def JVal.beq : JVal → JVal → Bool
  | .str a, .str b => a == b
  | .int a, .int b => a == b
  | .bool a, .bool b => a == b
  | .null, .null => true
  | .arr a, .arr b => JVal.beqList a b
  | .obj a, .obj b => JVal.beqFields a b
  | _, _ => false

def JVal.beqList : List JVal → List JVal → Bool
  | [], [] => true
  | x :: xs, y :: ys => JVal.beq x y && JVal.beqList xs ys
  | _, _ => false

def JVal.beqFields : List (Str × JVal) → List (Str × JVal) → Bool
  | [], [] => true
  | (k1, v1) :: xs, (k2, v2) :: ys => k1 == k2 && JVal.beq v1 v2 && JVal.beqFields xs ys
  | _, _ => false

end

mutual

theorem JVal.beq_iff : ∀ a b : JVal, JVal.beq a b = true ↔ a = b
  | .str a, .str b => by simp [JVal.beq]
  | .str _, .int _ | .str _, .bool _ | .str _, .null | .str _, .arr _ | .str _, .obj _ => by
    simp [JVal.beq]
  | .int _, .str _ => by simp [JVal.beq]
  | .int a, .int b => by simp [JVal.beq]
  | .int _, .bool _ | .int _, .null | .int _, .arr _ | .int _, .obj _ => by simp [JVal.beq]
  | .bool _, .str _ | .bool _, .int _ => by simp [JVal.beq]
  | .bool a, .bool b => by simp [JVal.beq]
  | .bool _, .null | .bool _, .arr _ | .bool _, .obj _ => by simp [JVal.beq]
  | .null, .str _ | .null, .int _ | .null, .bool _ => by simp [JVal.beq]
  | .null, .null => by simp [JVal.beq]
  | .null, .arr _ | .null, .obj _ => by simp [JVal.beq]
  | .arr _, .str _ | .arr _, .int _ | .arr _, .bool _ | .arr _, .null => by simp [JVal.beq]
  | .arr a, .arr b => by
    simp [JVal.beq, JVal.beqList_iff a b]
  | .arr _, .obj _ => by simp [JVal.beq]
  | .obj _, .str _ | .obj _, .int _ | .obj _, .bool _ | .obj _, .null | .obj _, .arr _ => by
    simp [JVal.beq]
  | .obj a, .obj b => by
    simp [JVal.beq, JVal.beqFields_iff a b]

theorem JVal.beqList_iff : ∀ a b : List JVal, JVal.beqList a b = true ↔ a = b
  | [], [] => by simp [JVal.beqList]
  | [], _ :: _ => by simp [JVal.beqList]
  | _ :: _, [] => by simp [JVal.beqList]
  | x :: xs, y :: ys => by
    simp [JVal.beqList, JVal.beq_iff x y, JVal.beqList_iff xs ys]

theorem JVal.beqFields_iff : ∀ a b : List (Str × JVal), JVal.beqFields a b = true ↔ a = b
  | [], [] => by simp [JVal.beqFields]
  | [], _ :: _ => by simp [JVal.beqFields]
  | _ :: _, [] => by simp [JVal.beqFields]
  | (k1, v1) :: xs, (k2, v2) :: ys => by
    simp [JVal.beqFields, JVal.beq_iff v1 v2, JVal.beqFields_iff xs ys, and_assoc]

end

instance : DecidableEq JVal := fun a b => decidable_of_iff _ (JVal.beq_iff a b)

/-- Keys of an association list (a Python dict's key view). -/
def keysOf (d : List (Str × JVal)) : List Str := d.map Prod.fst

/-- `d[k] = v` on a Python (ordered) dict: replace in place when the key is
present, append otherwise. -/
def dinsert (k : Str) (v : JVal) : List (Str × JVal) → List (Str × JVal)
  | [] => [(k, v)]
  | (k2, v2) :: rest => if k2 = k then (k, v) :: rest else (k2, v2) :: dinsert k v rest

/-- `d[k]` lookup; `none` corresponds to a Python `KeyError`. -/
def dlookup (k : Str) : List (Str × JVal) → Option JVal
  | [] => none
  | (k2, v2) :: rest => if k2 = k then some v2 else dlookup k rest

/-- `del d[k]`; `none` corresponds to a Python `KeyError` on a missing key. -/
def ddelete (k : Str) : List (Str × JVal) → Option (List (Str × JVal))
  | [] => none
  | (k2, v2) :: rest =>
    if k2 = k then some rest else (ddelete k rest).map (fun d => (k2, v2) :: d)

/-- `d.update(e)` on a Python dict: insert every entry of `e` in order. -/
def dupdate (d e : List (Str × JVal)) : List (Str × JVal) :=
  e.foldl (fun acc p => dinsert p.1 p.2 acc) d

/-- Modelled from the spec: the `TypedValue` of `dslink/Value.py` (that file is
not among the sources).  It holds a raw value, a declared type tag and the
timestamp of the last mutation; `has_value()` is true iff a value has ever
been assigned. -/
structure TValue where
  val : Option JVal
  typ : Option JVal
  updatedAt : Str
deriving DecidableEq

/-- Modelled from the spec: a fresh `TypedValue` is created empty. -/
def TValue.empty : TValue := { val := none, typ := none, updatedAt := [] }

/-- Modelled from the spec: `Value.has_value()` is true iff a value has ever
been assigned. -/
def TValue.hasValue (tv : TValue) : Bool := tv.val.isSome

/-- Modelled from the spec: `Value.set_value` compares against and replaces the
stored value, returning whether the value actually changed; the last-update
timestamp is set exactly once per successful assignment (`now` stands for the
wall-clock reading). -/
def TValue.setValue (v : JVal) (now : Str) (tv : TValue) : Bool × TValue :=
  if tv.val = some v then (false, tv)
  else (true, { tv with val := some v, updatedAt := now })

/-- Modelled from the spec: `Value.set_type` records the declared type tag. -/
def TValue.setType (t : JVal) (tv : TValue) : TValue := { tv with typ := some t }

/-- The non-recursive fields of `Node.__init__` (`dslink/Node.py`).  The
`link`, `logger` and deprecated callback fields are omitted; the owning link's
`active` flag is passed explicitly to the operations that consult it. -/
structure NodeData where
  name : Str
  path : Str
  standalone : Bool
  transient : Bool
  value : TValue
  config : List (Str × JVal)
  attributes : List (Str × JVal)
  subscribers : List Nat
  streams : List Nat
deriving DecidableEq

/-- A node: its scalar data, its children (a name-keyed insertion-ordered dict,
keyed by each child's own `name`) and the `removed_children` tombstone list. -/
inductive Node where
  | mk (data : NodeData) (children : List Node) (removedChildren : List Node)

def Node.data : Node → NodeData
  | .mk d _ _ => d

def Node.children : Node → List Node
  | .mk _ c _ => c

def Node.removedChildren : Node → List Node
  | .mk _ _ r => r

def Node.name (n : Node) : Str := n.data.name

def Node.path (n : Node) : Str := n.data.path

def Node.standalone (n : Node) : Bool := n.data.standalone

def Node.transient (n : Node) : Bool := n.data.transient

def Node.value (n : Node) : TValue := n.data.value

def Node.config (n : Node) : List (Str × JVal) := n.data.config

def Node.attributes (n : Node) : List (Str × JVal) := n.data.attributes

def Node.subscribers (n : Node) : List Nat := n.data.subscribers

def Node.streams (n : Node) : List Nat := n.data.streams

def Node.withData (d : NodeData) : Node → Node
  | .mk _ c r => .mk d c r

def Node.withChildren (c : List Node) : Node → Node
  | .mk d _ r => .mk d c r

def Node.withRemoved (r : List Node) : Node → Node
  | .mk d c _ => .mk d c r

@[simp] theorem Node.data_mk (d : NodeData) (c r : List Node) :
    (Node.mk d c r).data = d := rfl

@[simp] theorem Node.children_mk (d : NodeData) (c r : List Node) :
    (Node.mk d c r).children = c := rfl

@[simp] theorem Node.removedChildren_mk (d : NodeData) (c r : List Node) :
    (Node.mk d c r).removedChildren = r := rfl

/-- `"x".endswith("/")` on a Python string. -/
def endsWithSlash (s : Str) : Bool := decide (s.getLast? = some '/')

/-- Path derivation of `Node.__init__` when a parent is present: if the
parent's path ends in a slash the name is appended directly, otherwise a
slash separator is inserted. -/
def childPath (parentPath : Str) (name : Str) : Str :=
  if endsWithSlash parentPath then parentPath ++ name else parentPath ++ '/' :: name

/-- Path derivation of `Node.__init__` for a parentless node: `/name` when a
name is given, the empty path otherwise. -/
def rootPath (name : Option Str) : Str :=
  match name with
  | some nm => '/' :: nm
  | none => []

/-- `Node(name, parent)` for a node with a parent: fresh value, config seeded
with the `$is = "node"` entry, empty attributes, children, subscriber,
stream and tombstone lists, and the derived path. -/
def newNode (name : Str) (parentPath : Str) : Node :=
  Node.mk
    { name := name
      path := childPath parentPath name
      standalone := false
      transient := false
      value := TValue.empty
      config := [("$is".toList, JVal.str "node".toList)]
      attributes := []
      subscribers := []
      streams := [] }
    [] []

/-- `Node.set_config` (structural effect): update the config map.  The
source also marks the owning link's `nodes_changed` flag and triggers the
structural notifier; the notifier itself is embedded as
`Node.updateSubscribers`. -/
def Node.setConfig (k : Str) (v : JVal) (n : Node) : Node :=
  n.withData { n.data with config := dinsert k v n.data.config }

/-- `Node.set_attribute` (structural effect): update the attribute map; the
flag/notifier side effects are as for `Node.setConfig`. -/
def Node.setAttribute (k : Str) (v : JVal) (n : Node) : Node :=
  n.withData { n.data with attributes := dinsert k v n.data.attributes }

/-- `Node.set_type`: record the type tag on the value and mirror it into
`config` under the `$type` key. -/
def Node.setType (t : JVal) (n : Node) : Node :=
  (n.withData { n.data with value := n.data.value.setType t }).setConfig "$type".toList t

/-- `Node.get_config`: `none` corresponds to the propagated `KeyError`. -/
def Node.getConfig (k : Str) (n : Node) : Option JVal := dlookup k n.config

/-- `Node.get_attribute`: `none` corresponds to the propagated `KeyError`. -/
def Node.getAttribute (k : Str) (n : Node) : Option JVal := dlookup k n.attributes

/-- One value-change update triple `[sid, value, timestamp]`. -/
structure ValueUpd where
  sid : Nat
  v : JVal
  ts : Str
deriving DecidableEq

/-- `Node.update_subscribers_values`: when the value holds something, build one
rid-0 response per subscriber and send them as a single message; no message is
sent when there is no value or there are no subscribers.  The result is the
list of messages handed to the transport. -/
def Node.updateSubscribersValues (n : Node) : List (List ValueUpd) :=
  if n.value.hasValue then
    let resps := n.subscribers.map
      (fun s => { sid := s, v := n.value.val.getD JVal.null, ts := n.value.updatedAt })
    if resps = [] then [] else [resps]
  else []

/-- Result of `Node.set_value`: the returned flag, whether
`update_subscribers_values` was invoked, the messages it sent, and the node
after the mutation. -/
structure SetValueResult where
  changed : Bool
  notified : Bool
  msgs : List (List ValueUpd)
  node : Node

/-- `Node.set_value`: store the value, then — when it changed and
`not self.standalone or self.link.active` holds — notify the value
subscribers.  `active` is the owning link's flag; the `trigger_callback`
branch only invokes external callbacks and is omitted. -/
def Node.setValue (v : JVal) (active : Bool) (now : Str) (n : Node) : SetValueResult :=
  let iv := n.data.value.setValue v now
  let n2 := n.withData { n.data with value := iv.2 }
  if iv.1 && (!n2.standalone || active) then
    { changed := iv.1, notified := true, msgs := n2.updateSubscribersValues, node := n2 }
  else
    { changed := iv.1, notified := false, msgs := [], node := n2 }

/-- One entry of a structural update batch: a `[key, value]` pair, a
`[childName, descriptor]` pair, or a removal tombstone. -/
inductive SEntry where
  | kv (key : Str) (v : JVal)
  | child (name : Str) (desc : List (Str × JVal))
  | removed (name : Str)
deriving DecidableEq

/-- The child descriptor built inside `Node.stream`: a copy of the child's
config, updated with its attributes, updated with `value` and `ts` entries
when the child's value holds a value. -/
def childDesc (c : Node) : List (Str × JVal) :=
  let val : List (Str × JVal) :=
    if c.value.hasValue then
      [("value".toList, c.value.val.getD JVal.null), ("ts".toList, JVal.str c.value.updatedAt)]
    else []
  dupdate (dupdate c.config c.attributes) val

/-- `Node.stream`: build the structural batch by appending, in the source's
loop order, one pair per config entry, one per attribute entry, one descriptor
per live child, and one tombstone per removed child; the tombstone list is
cleared before returning. -/
def Node.stream (n : Node) : List SEntry × Node :=
  let out1 := n.config.foldl (fun out p => out ++ [SEntry.kv p.1 p.2]) []
  let out2 := n.attributes.foldl (fun out p => out ++ [SEntry.kv p.1 p.2]) out1
  let out3 := n.children.foldl (fun out c => out ++ [SEntry.child c.name (childDesc c)]) out2
  let out4 := n.removedChildren.foldl (fun out c => out ++ [SEntry.removed c.name]) out3
  (out4, n.withRemoved [])

/-- One stream-update response `(rid, "stream": "open", updates)`. -/
structure RespMsg where
  rid : Nat
  updates : List SEntry
deriving DecidableEq

/-- One iteration of the `update_subscribers` loop: append the response for
one stream id, built by a fresh call to `stream()` on the current node. -/
def usStep (acc : List RespMsg × Node) (sid : Nat) : List RespMsg × Node :=
  let sn := acc.2.stream
  (acc.1 ++ [{ rid := sid, updates := sn.1 }], sn.2)

/-- `Node.update_subscribers`: one response per open stream id, each built by a
fresh call to `stream()` (which drains the tombstones); the responses are sent
as one message when at least one exists.  Returns the responses and the node
after all the `stream()` calls. -/
def Node.updateSubscribers (n : Node) : List RespMsg × Node :=
  n.streams.foldl usStep ([], n)

/-- `Node.add_child`: `none` when a child of that name already exists (the
raised `ValueError`), otherwise the child is inserted at the end of the
children dict.  The `nodes_changed` flag and the conditional structural
notification are side effects outside the returned structure. -/
def Node.addChild (n : Node) (c : Node) : Option Node :=
  if (n.children.map Node.name).contains c.name then none
  else some (n.withChildren (n.children ++ [c]))

/-- `Node.has_child`. -/
def Node.hasChild (nm : Str) (n : Node) : Bool :=
  (n.children.map Node.name).contains nm

/-- `Node.remove_child`: `False` (and no mutation) when the name is absent;
otherwise the child is popped from `children`, appended to
`removed_children`, and `update_subscribers()` runs.  Returns the flag, the
responses emitted by the notifier, and the final node. -/
def Node.removeChild (nm : Str) (n : Node) : Bool × List RespMsg × Node :=
  match n.children.find? (fun c => decide (c.name = nm)) with
  | none => (false, [], n)
  | some c =>
    let n2 := (n.withChildren (n.children.eraseP (fun d => decide (d.name = nm)))).withRemoved
      (n.removedChildren ++ [c])
    let rn := n2.updateSubscribers
    (true, rn.1, rn.2)

/-- First index of `p` in a character list (`none` = Python `ValueError`). -/
def idxOf? (p : Char → Bool) : Str → Option Nat
  | [] => none
  | x :: xs => if p x then some 0 else (idxOf? p xs).map (fun i => i + 1)

/-- Python `s.index(ch, start)`: first index `≥ start` holding `ch`. -/
def findFrom (ch : Char) (l : Str) (start : Nat) : Option Nat :=
  (idxOf? (fun x => decide (x = ch)) (l.drop start)).map (fun i => start + i)

theorem idxOf?_lt {p : Char → Bool} : ∀ {l : Str} {j : Nat}, idxOf? p l = some j → j < l.length
  | [], _, h => by simp [idxOf?] at h
  | x :: xs, j, h => by
    by_cases hx : p x
    · simp [idxOf?, hx] at h
      simp only [List.length_cons]
      omega
    · simp [idxOf?, hx] at h
      obtain ⟨i, hi, rfl⟩ := h
      have := idxOf?_lt hi
      simp
      omega

theorem findFrom_bounds {ch : Char} {l : Str} {start i : Nat}
    (h : findFrom ch l start = some i) : start ≤ i ∧ i < l.length := by
  simp [findFrom] at h
  obtain ⟨j, hj, rfl⟩ := h
  have := idxOf?_lt hj
  simp at this
  omega

/-- `Node.get`: `"/"` and any path starting `/$` or `/@` resolve to this node;
otherwise the first path segment names a child and resolution recurses with
the remaining path; a missing child (`KeyError`) is logged and swallowed,
yielding `none`. -/
def Node.get (n : Node) (path : Str) : Option Node :=
  if path = ['/'] then some n
  else if ['/', '$'].isPrefixOf path then some n
  else if ['/', '@'].isPrefixOf path then some n
  else
    match h : findFrom '/' path 2 with
    | some i =>
      match n.children.find? (fun c => decide (c.name = (path.drop 1).take (i - 1))) with
      | none => none
      | some cnode => cnode.get (path.drop i)
    | none =>
      match n.children.find? (fun c => decide (c.name = path.drop 1)) with
      | none => none
      | some cnode => some cnode
termination_by path.length
decreasing_by
  have := findFrom_bounds h
  simp
  omega

/-- `Node.remove_config_attr`, branch logic: a path starting `/$` (or
`self.path + "/$"`) and likewise `/@` (or `self.path + "/@"`) both delete
`path[2:]` from the *config* dict — note that the `@` branch of the source
also deletes from `self.config`, not from `self.attributes`; a missing key
is a propagated `KeyError` (`none`).  Any other path resolves via `get` and
recurses (`Node.removeConfigAttrFuel`). -/
def Node.removeConfigAttrHere (path : Str) (n : Node) : Option (Option Node) :=
  if ['/', '$'].isPrefixOf path || (n.path ++ ['/', '$']).isPrefixOf path then
    some ((ddelete (path.drop 2) n.config).map
      (fun cfg => n.withData { n.data with config := cfg }))
  else if ['/', '@'].isPrefixOf path || (n.path ++ ['/', '@']).isPrefixOf path then
    some ((ddelete (path.drop 2) n.config).map
      (fun cfg => n.withData { n.data with config := cfg }))
  else none

/-- Rebuild the tree after mutating the node `Node.get` resolves `path` to:
Python mutates the aliased object in place, which in a value semantics is a
graft along `get`'s traversal.  `none` mirrors the places where `get` fails
(the swallowed `KeyError` leaves `None`, on which the caller's attribute
access then fails). -/
def Node.modifyAt (path : Str) (f : Node → Option Node) (n : Node) : Option Node :=
  if path = ['/'] then f n
  else if ['/', '$'].isPrefixOf path then f n
  else if ['/', '@'].isPrefixOf path then f n
  else
    match h : findFrom '/' path 2 with
    | some i =>
      match n.children.find? (fun c => decide (c.name = (path.drop 1).take (i - 1))) with
      | none => none
      | some cnode =>
        (cnode.modifyAt (path.drop i) f).map
          (fun c2 => n.withChildren (n.children.map
            (fun d => if d.name = (path.drop 1).take (i - 1) then c2 else d)))
    | none =>
      match n.children.find? (fun c => decide (c.name = path.drop 1)) with
      | none => none
      | some cnode =>
        (f cnode).map
          (fun c2 => n.withChildren (n.children.map
            (fun d => if d.name = path.drop 1 then c2 else d)))
termination_by path.length
decreasing_by
  have := findFrom_bounds h
  simp
  omega

/-- `Node.remove_config_attr` with the recursive else branch, fuelled by the
Python recursion limit (exhaustion, like an uncaught error, is `none`). -/
def Node.removeConfigAttrFuel : Nat → Str → Node → Option Node
  | 0, _, _ => none
  | fuel + 1, path, n =>
    match n.removeConfigAttrHere path with
    | some r => r
    | none => n.modifyAt path (fun m => Node.removeConfigAttrFuel fuel path m)

mutual

/-- `Node.to_json`: a fresh dict filled by successive key assignments — every
config entry, then every attribute entry, then one recursively serialized
entry per non-transient child under the child's name. -/
def Node.toJson : Node → JVal
  | .mk d ch _ =>
    JVal.obj (((d.config ++ d.attributes) ++ childJsonEntries ch).foldl
      (fun acc p => dinsert p.1 p.2 acc) [])

/-- The child entries written by the `to_json` loop, in children order,
skipping transient children. -/
def childJsonEntries : List Node → List (Str × JVal)
  | [] => []
  | c :: cs =>
    if c.transient then childJsonEntries cs
    else (c.name, Node.toJson c) :: childJsonEntries cs

end

mutual

/-- `Node.from_json`: construct a node (the constructor derives its path from
the parent), then route each key of the input object: `$type` through the
typed-value setter, other `$`-keys to config, `@`-keys to attributes, and any
other key to a recursively deserialized child added via `add_child`.  A
non-dict input yields the bare constructed node. -/
def fromJson (obj : JVal) (parentPath : Str) (name : Str) : Option Node :=
  match obj with
  | .obj fields => fromJsonFields fields (newNode name parentPath)
  | _ => some (newNode name parentPath)

/-- The key-routing loop of `Node.from_json` over the remaining fields. -/
def fromJsonFields : List (Str × JVal) → Node → Option Node
  | [], node => some node
  | (k, v) :: rest, node =>
    if ['$'].isPrefixOf k then
      if k = "$type".toList then fromJsonFields rest (node.setType v)
      else fromJsonFields rest (node.setConfig k v)
    else if ['@'].isPrefixOf k then fromJsonFields rest (node.setAttribute k v)
    else
      match fromJson v node.path k with
      | none => none
      | some child =>
        match node.addChild child with
        | none => none
        | some node2 => fromJsonFields rest node2

end

/-- The non-transient children, i.e. those the serializer covers. -/
def ntChildren (ch : List Node) : List Node := ch.filter (fun c => !c.transient)

mutual

/-- Well-formedness assumed by the serializer round trip: the config starts
with its constructor-seeded `$is` entry and its keys are distinct and
`$`-namespaced, attribute keys are distinct and `@`-namespaced, non-transient
child names avoid both namespaces and are distinct, and every non-transient
child is itself well-formed. -/
def wfNode : Node → Bool
  | .mk d ch _ =>
    decide (d.config.head?.map Prod.fst = some "$is".toList) &&
    (keysOf d.config).all (fun k => ['$'].isPrefixOf k) &&
    decide (keysOf d.config).Nodup &&
    (keysOf d.attributes).all (fun k => ['@'].isPrefixOf k) &&
    decide (keysOf d.attributes).Nodup &&
    (ntChildren ch).all (fun c => !(['$'].isPrefixOf c.name) && !(['@'].isPrefixOf c.name)) &&
    decide ((ntChildren ch).map Node.name).Nodup &&
    wfChildren ch

def wfChildren : List Node → Bool
  | [] => true
  | c :: cs => (c.transient || wfNode c) && wfChildren cs

end

/-- The structure the round-trip claim compares: name, config, attributes and
child structure (value payloads and flags excluded). -/
inductive Shape where
  | mk (name : Str) (config : List (Str × JVal)) (attributes : List (Str × JVal))
      (children : List Shape)

mutual

/-- Shape with transient subtrees removed (what serialization covers). -/
def shapeNT : Node → Shape
  | .mk d ch _ => .mk d.name d.config d.attributes (shapesNT ch)

def shapesNT : List Node → List Shape
  | [] => []
  | c :: cs => if c.transient then shapesNT cs else shapeNT c :: shapesNT cs

end

mutual

/-- Shape keeping every child. -/
def shapeAll : Node → Shape
  | .mk d ch _ => .mk d.name d.config d.attributes (shapesAll ch)

def shapesAll : List Node → List Shape
  | [] => []
  | c :: cs => shapeAll c :: shapesAll cs

end

/-! ### Session identity and URL builder (`dslink/DSLink.py`)

`hashlib.sha256` is embedded as the SHA-256 function itself (FIPS 180-4) on
byte lists, and `base64.urlsafe_b64encode` as URL-safe base64. -/

/-- Truncation to a 32-bit word. -/
def w32 (x : Nat) : Nat := x % 4294967296

/-- Right rotation of a 32-bit word. -/
def rotr (n x : Nat) : Nat := w32 ((x >>> n) ||| (x <<< (32 - n)))

/-- The SHA-256 round constants (decimal). -/
def sha256K : List Nat :=
  [1116352408, 1899447441, 3049323471, 3921009573, 961987163, 1508970993, 2453635748,
   2870763221, 3624381080, 310598401, 607225278, 1426881987, 1925078388, 2162078206,
   2614888103, 3248222580, 3835390401, 4022224774, 264347078, 604807628, 770255983,
   1249150122, 1555081692, 1996064986, 2554220882, 2821834349, 2952996808, 3210313671,
   3336571891, 3584528711, 113926993, 338241895, 666307205, 773529912, 1294757372,
   1396182291, 1695183700, 1986661051, 2177026350, 2456956037, 2730485921, 2820302411,
   3259730800, 3345764771, 3516065817, 3600352804, 4094571909, 275423344, 430227734,
   506948616, 659060556, 883997877, 958139571, 1322822218, 1537002063, 1747873779,
   1955562222, 2024104815, 2227730452, 2361852424, 2428436474, 2756734187, 3204031479,
   3329325298]

/-- The SHA-256 initial hash state (decimal). -/
def sha256Init : List Nat :=
  [1779033703, 3144134277, 1013904242, 2773480762, 1359893119, 2600822924, 528734635,
   1541459225]

/-- Big-endian byte rendering of `x` on `n` bytes. -/
def bytesBE : Nat → Nat → List Nat
  | 0, _ => []
  | n + 1, x => bytesBE n (x / 256) ++ [x % 256]

/-- SHA-256 message padding: `0x80`, zeros to 56 mod 64, 64-bit bit length. -/
def sha256pad (msg : List Nat) : List Nat :=
  let L := msg.length
  let k := (120 - ((L + 1) % 64)) % 64
  msg ++ [128] ++ List.replicate k 0 ++ bytesBE 8 (8 * L)

/-- Big-endian 32-bit words of a byte list. -/
def toWords : List Nat → List Nat
  | b1 :: b2 :: b3 :: b4 :: rest =>
    (((b1 * 256 + b2) * 256 + b3) * 256 + b4) :: toWords rest
  | _ => []

/-- One step of the SHA-256 message-schedule extension: append `w[t]` computed
from `w[t-2]`, `w[t-7]`, `w[t-15]` and `w[t-16]`. -/
def schedStep (w : List Nat) : List Nat :=
  let n := w.length
  let g := fun i => w.getD (n - i) 0
  let s0 := w32 (Nat.xor (Nat.xor (rotr 7 (g 15)) (rotr 18 (g 15))) ((g 15) >>> 3))
  let s1 := w32 (Nat.xor (Nat.xor (rotr 17 (g 2)) (rotr 19 (g 2))) ((g 2) >>> 10))
  w ++ [w32 (g 16 + s0 + g 7 + s1)]

/-- Extend the 16 block words to the 64 schedule words. -/
def extendTo64 (w : List Nat) : List Nat :=
  (List.range 48).foldl (fun acc _ => schedStep acc) w

/-- The SHA-256 compression function over one 64-word schedule. -/
def sha256compress (h : List Nat) (w64 : List Nat) : List Nat :=
  let step := fun (st : List Nat) (p : Nat × Nat) =>
    match st with
    | [a, b, c, d, e, f, g, hh] =>
      let s1 := w32 (Nat.xor (Nat.xor (rotr 6 e) (rotr 11 e)) (rotr 25 e))
      let ch := w32 (Nat.xor (e &&& f) ((Nat.xor 4294967295 e) &&& g))
      let t1 := w32 (hh + s1 + ch + p.1 + p.2)
      let s0 := w32 (Nat.xor (Nat.xor (rotr 2 a) (rotr 13 a)) (rotr 22 a))
      let mj := w32 (Nat.xor (Nat.xor (a &&& b) (a &&& c)) (b &&& c))
      let t2 := w32 (s0 + mj)
      [w32 (t1 + t2), a, b, c, w32 (d + t1), e, f, g]
    | _ => st
  let fin := (sha256K.zip w64).foldl step h
  match h, fin with
  | [h0, h1, h2, h3, h4, h5, h6, h7], [a, b, c, d, e, f, g, hh] =>
    [w32 (h0 + a), w32 (h1 + b), w32 (h2 + c), w32 (h3 + d), w32 (h4 + e), w32 (h5 + f),
     w32 (h6 + g), w32 (h7 + hh)]
  | _, _ => h

/-- Fold the compression function over the 64-byte blocks; the first argument
bounds the number of blocks (structural recursion so the definition computes
by kernel reduction; any bound at least the block count gives the fold). -/
def sha256blocks : Nat → List Nat → List Nat → List Nat
  | 0, h, _ => h
  | fuel + 1, h, bytes =>
    if bytes = [] then h
    else sha256blocks fuel (sha256compress h (extendTo64 (toWords (bytes.take 64))))
      (bytes.drop 64)

/-- SHA-256 of a byte list, as the 32 digest bytes. -/
def sha256 (msg : List Nat) : List Nat :=
  ((sha256blocks (msg.length + 2) sha256Init (sha256pad msg)).map (bytesBE 4)).flatten

/-- The URL-safe base64 alphabet. -/
def b64alphabet : List Char :=
  "ABCDEFGHIJKLMNOPQRSTUVWXYZabcdefghijklmnopqrstuvwxyz0123456789-_".toList

/-- Character of the URL-safe base64 alphabet at a 6-bit index. -/
def b64c (n : Nat) : Char := b64alphabet.getD n 'A'

/-- `base64.urlsafe_b64encode` on a byte list, with `=` padding. -/
def b64urlEncode : List Nat → List Char
  | b1 :: b2 :: b3 :: rest =>
    b64c (b1 / 4) :: b64c ((b1 % 4) * 16 + b2 / 16) :: b64c ((b2 % 16) * 4 + b3 / 64) ::
      b64c (b3 % 64) :: b64urlEncode rest
  | [b1, b2] => [b64c (b1 / 4), b64c ((b1 % 4) * 16 + b2 / 16), b64c ((b2 % 16) * 4), '=']
  | [b1] => [b64c (b1 / 4), b64c ((b1 % 4) * 16), '=', '=']
  | [] => []

/-- `DSLink.get_auth`: base64url of SHA-256 of `salt ++ shared_secret`, with
every `=` removed (`str.replace("=", "")`). -/
def getAuth (salt secret : List Nat) : Str :=
  (b64urlEncode (sha256 (salt ++ secret))).filter (fun c => decide (c ≠ '='))

/-- The spec's formulation of padding removal: strip the trailing `=`
characters. -/
def stripPad (s : Str) : Str :=
  (s.reverse.dropWhile (fun c => decide (c = '='))).reverse

/-- The `.replace("http", "ws")` call of `get_url`: each occurrence of
`http`, scanned left to right and non-overlapping, becomes `ws`. -/
def replaceHttpWs : Str → Str
  | c1 :: c2 :: c3 :: c4 :: rest =>
    if c1 = 'h' ∧ c2 = 't' ∧ c3 = 't' ∧ c4 = 'p' then 'w' :: 's' :: replaceHttpWs rest
    else c1 :: replaceHttpWs (c2 :: c3 :: c4 :: rest)
  | c1 :: t1 => c1 :: replaceHttpWs t1
  | [] => []

/-- Whether `http` occurs as a substring. -/
def hasHttp : Str → Bool
  | [] => false
  | c :: rest => (decide (c = 'h') && "ttp".toList.isPrefixOf rest) || hasHttp rest

/-- The byte run after the first `//` of a URL (`none` when there is none). -/
def afterDoubleSlash : Str → Option Str
  | [] => none
  | c :: rest =>
    if c = '/' ∧ "/".toList.isPrefixOf rest then some (rest.drop 1)
    else afterDoubleSlash rest

/-- The netloc the stdlib URL parser extracts: the text after the first `//`
up to the next `/`, `?` or `#`. -/
def netlocOf (u : Str) : Str :=
  ((afterDoubleSlash u).getD []).takeWhile
    (fun c => decide (c ≠ '/' ∧ c ≠ '?' ∧ c ≠ '#'))

/-- Decimal value of a digit string. -/
def digitsVal (s : Str) : Nat := s.foldl (fun acc c => acc * 10 + (c.toNat - 48)) 0

/-- The digit run after the last `:` of a netloc. -/
def portRun (nl : Str) : Str :=
  (nl.reverse.takeWhile (fun c => decide (c ≠ ':'))).reverse

/-- The explicit port of a URL, as the stdlib parser recovers it: the digit
run after the last `:` of the netloc. -/
def urlPort (u : Str) : Option Nat :=
  if (netlocOf u).contains ':' then
    if portRun (netlocOf u) ≠ [] ∧ (portRun (netlocOf u)).all Char.isDigit then
      some (digitsVal (portRun (netlocOf u)))
    else none
  else none

/-- `DSLink.get_url`: drop the last five characters of the broker address,
replace every `http` by `ws`, append `/ws?dsId=<dsid>`, then `&auth=<auth>`
when authentication is needed, then the token fragment when the token hash is
not `None`; return the URI and the parsed port, defaulting to 80. -/
def getUrl (broker dsid : Str) (needsAuth : Bool) (auth : Str) (token : Option Str) :
    Str × Nat :=
  let uri0 := replaceHttpWs (broker.take (broker.length - 5)) ++ "/ws?dsId=".toList ++ dsid
  let uri1 := if needsAuth then uri0 ++ "&auth=".toList ++ auth else uri0
  let uri2 := match token with
    | some t => uri1 ++ t
    | none => uri1
  (uri2, (urlPort uri2).getD 80)

/-- The connect URL as the claim describes it: strip the broker address's
trailing path segment, rewrite the leading scheme `http` to `ws` (`https` to
`wss`), append `?dsId=<dsid>`, and `&auth=<auth>` exactly when authentication
is required; the port is the URL's explicit port, defaulting to 80. -/
def getUrlClaim (broker dsid : Str) (needsAuth : Bool) (auth : Str) : Str × Nat :=
  let base := ((broker.reverse.dropWhile (fun c => decide (c ≠ '/'))).drop 1).reverse
  let base2 :=
    if "https://".toList.isPrefixOf base then "wss://".toList ++ base.drop 8
    else if "http://".toList.isPrefixOf base then "ws://".toList ++ base.drop 7
    else base
  let uri := base2 ++ "?dsId=".toList ++ dsid
  let uri2 := if needsAuth then uri ++ "&auth=".toList ++ auth else uri
  (uri2, (urlPort uri2).getD 80)

/-! ### General lemmas about the dict and list operations -/

theorem foldl_push_eq_append {α β : Type} (f : α → β) :
    ∀ (l : List α) (init : List β),
      l.foldl (fun out x => out ++ [f x]) init = init ++ l.map f
  | [], init => by simp
  | x :: xs, init => by
    simp [foldl_push_eq_append f xs]

theorem keysOf_cons (k : Str) (v : JVal) (d : List (Str × JVal)) :
    keysOf ((k, v) :: d) = k :: keysOf d := rfl

theorem keysOf_append (d e : List (Str × JVal)) :
    keysOf (d ++ e) = keysOf d ++ keysOf e := by
  simp [keysOf]

theorem dinsert_of_not_mem {k : Str} {v : JVal} {d : List (Str × JVal)}
    (h : k ∉ keysOf d) : dinsert k v d = d ++ [(k, v)] := by
  induction d with
  | nil => rfl
  | cons p rest ih =>
    obtain ⟨k2, v2⟩ := p
    rw [keysOf_cons] at h
    have hne : k2 ≠ k := fun he => h (he ▸ List.mem_cons_self _ _)
    have hrest : k ∉ keysOf rest := fun hm => h (List.mem_cons_of_mem _ hm)
    simp [dinsert, hne, ih hrest]

theorem dlookup_dinsert_self (k : Str) (v : JVal) (d : List (Str × JVal)) :
    dlookup k (dinsert k v d) = some v := by
  induction d with
  | nil => simp [dinsert, dlookup]
  | cons p rest ih =>
    obtain ⟨k2, v2⟩ := p
    by_cases h : k2 = k
    · simp [dinsert, dlookup, h]
    · simp [dinsert, dlookup, h, ih]

theorem dlookup_dinsert_ne {k2 k : Str} (hne : k2 ≠ k) (v : JVal)
    (d : List (Str × JVal)) : dlookup k2 (dinsert k v d) = dlookup k2 d := by
  induction d with
  | nil =>
    simp only [dinsert, dlookup]
    rw [if_neg (fun h => hne h.symm)]
  | cons p rest ih =>
    obtain ⟨k3, v3⟩ := p
    by_cases h : k3 = k
    · subst h
      simp only [dinsert, if_pos rfl, dlookup]
      rw [if_neg (fun h2 => hne h2.symm), if_neg (fun h2 => hne h2.symm)]
    · simp only [dinsert, if_neg h, dlookup]
      by_cases h2 : k3 = k2
      · rw [if_pos h2, if_pos h2]
      · rw [if_neg h2, if_neg h2]
        exact ih

theorem foldl_dinsert_fresh :
    ∀ {e d : List (Str × JVal)}, (keysOf e).Nodup → (∀ k ∈ keysOf e, k ∉ keysOf d) →
      e.foldl (fun acc p => dinsert p.1 p.2 acc) d = d ++ e
  | [], d, _, _ => by simp
  | (k, v) :: rest, d, hnd, hdisj => by
    rw [keysOf_cons] at hnd hdisj
    have hk : k ∉ keysOf d := hdisj k (List.mem_cons_self _ _)
    have hnd2 : (keysOf rest).Nodup := (List.nodup_cons.mp hnd).2
    have hknotrest : k ∉ keysOf rest := (List.nodup_cons.mp hnd).1
    have hdisj2 : ∀ k2 ∈ keysOf rest, k2 ∉ keysOf (d ++ [(k, v)]) := by
      intro k2 hk2 hmem
      rw [keysOf_append] at hmem
      rcases List.mem_append.mp hmem with hd | hke
      · exact hdisj k2 (List.mem_cons_of_mem _ hk2) hd
      · have he : k2 = k := by simpa [keysOf] using hke
        exact hknotrest (he ▸ hk2)
    calc ((k, v) :: rest).foldl (fun acc p => dinsert p.1 p.2 acc) d
        = rest.foldl (fun acc p => dinsert p.1 p.2 acc) (d ++ [(k, v)]) := by
          simp [dinsert_of_not_mem hk]
      _ = (d ++ [(k, v)]) ++ rest := foldl_dinsert_fresh hnd2 hdisj2
      _ = d ++ ((k, v) :: rest) := by simp

theorem takeWhile_append_all {p : Char → Bool} {a : Str} (b : Str)
    (h : ∀ c ∈ a, p c = true) : (a ++ b).takeWhile p = a ++ b.takeWhile p := by
  induction a with
  | nil => simp
  | cons c rest ih =>
    have hc : p c = true := h c (by simp)
    simp only [List.cons_append, List.takeWhile_cons, hc, if_true]
    simp [ih (fun x hx => h x (by simp [hx]))]

theorem dropWhile_append_all {p : Char → Bool} {a : Str} (b : Str)
    (h : ∀ c ∈ a, p c = true) : (a ++ b).dropWhile p = b.dropWhile p := by
  induction a with
  | nil => simp
  | cons c rest ih =>
    have hc : p c = true := h c (by simp)
    simp only [List.cons_append, List.dropWhile_cons, hc, if_true]
    exact ih (fun x hx => h x (by simp [hx]))

/-! ### Claim theorems -/

/-- C1: the claim says `set_value` notifies the value subscribers iff the
value changed and the node structure is standalone or the link is active.
The source tests `not self.standalone or self.link.active` instead: with a
changed value on an inactive link, a standalone node is *not* notified and a
non-standalone node *is* — the opposite of the claim on both counts (compare
`add_child`, which tests `self.standalone or self.link.active`). -/
theorem setValue_notify_divergence :
    (let a : Node := Node.mk
      { name := ['a'], path := ['/', 'a'], standalone := true, transient := false,
        value := TValue.empty, config := [("$is".toList, JVal.str "node".toList)],
        attributes := [], subscribers := [1], streams := [] } [] []
     let r := a.setValue (JVal.int 5) false ['t']
     r.changed = true ∧ a.standalone = true ∧ r.notified = false ∧ r.msgs = []) ∧
    (let b : Node := Node.mk
      { name := ['b'], path := ['/', 'b'], standalone := false, transient := false,
        value := TValue.empty, config := [("$is".toList, JVal.str "node".toList)],
        attributes := [], subscribers := [1], streams := [] } [] []
     let r := b.setValue (JVal.int 5) false ['t']
     r.changed = true ∧ b.standalone = false ∧ r.notified = true ∧
       r.msgs = [[{ sid := 1, v := JVal.int 5, ts := ['t'] }]]) := by
  constructor
  · exact ⟨rfl, rfl, rfl, rfl⟩
  · exact ⟨rfl, rfl, rfl, rfl⟩

/-- C2: the claim says `remove_config_attr` on a path whose last segment
starts with `@` removes the key from the attributes and leaves the config
unchanged.  The source's `@` branch executes `del self.config[path[2:]]`: on
a node carrying the key in both maps the config entry disappears and the
attribute entry survives, and when only the attribute exists the call raises
`KeyError` without touching the attributes. -/
theorem removeConfigAttr_attr_divergence :
    (let n0 : Node := Node.mk
      { name := ['n'], path := ['/', 'n'], standalone := false, transient := false,
        value := TValue.empty,
        config := [("$is".toList, JVal.str "node".toList), (['a'], JVal.str ['x'])],
        attributes := [(['a'], JVal.str ['y'])], subscribers := [], streams := [] } [] []
     (Node.removeConfigAttrFuel 1 "/@a".toList n0).map Node.attributes
         = some [(['a'], JVal.str ['y'])] ∧
       (Node.removeConfigAttrFuel 1 "/@a".toList n0).map Node.config
         = some [("$is".toList, JVal.str "node".toList)]) ∧
    (let n1 : Node := Node.mk
      { name := ['n'], path := ['/', 'n'], standalone := false, transient := false,
        value := TValue.empty, config := [("$is".toList, JVal.str "node".toList)],
        attributes := [(['b'], JVal.str ['y'])], subscribers := [], streams := [] } [] []
     Node.removeConfigAttrFuel 1 "/@b".toList n1 = none) := by
  exact ⟨⟨rfl, rfl⟩, rfl⟩

theorem dlookup_eq_none_of_not_mem {k : Str} {d : List (Str × JVal)}
    (h : k ∉ keysOf d) : dlookup k d = none := by
  induction d with
  | nil => rfl
  | cons p rest ih =>
    obtain ⟨k2, v2⟩ := p
    rw [keysOf_cons] at h
    have hne : k2 ≠ k := fun he => h (he ▸ List.mem_cons_self _ _)
    simp only [dlookup, if_neg hne]
    exact ih (fun hm => h (List.mem_cons_of_mem _ hm))

/-- The batch built by `stream()`, written as the four mapped groups. -/
theorem stream_eq (n : Node) :
    (n.stream).1
      = n.config.map (fun p => SEntry.kv p.1 p.2)
        ++ n.attributes.map (fun p => SEntry.kv p.1 p.2)
        ++ n.children.map (fun c => SEntry.child c.name (childDesc c))
        ++ n.removedChildren.map (fun c => SEntry.removed c.name) := by
  simp only [Node.stream]
  rw [foldl_push_eq_append, foldl_push_eq_append, foldl_push_eq_append,
    foldl_push_eq_append]
  simp

/-- The node `stream()` leaves behind: the tombstone list is cleared. -/
theorem stream_snd (n : Node) : (n.stream).2 = n.withRemoved [] := rfl

/-- C3: the structural batch lists the config pairs (in insertion order), then
the attribute pairs, then one descriptor per live child, then one tombstone
per removed child; a child descriptor resolves `value` and `ts` exactly when
the child's value holds a value (the `value`/`ts` keys live outside the `$`/`@`
namespaces of the config and attribute keys, stated here as the non-membership
hypotheses) and otherwise is exactly the config updated with the attributes. -/
theorem stream_batch_order (n : Node) :
    (n.stream).1
      = n.config.map (fun p => SEntry.kv p.1 p.2)
        ++ n.attributes.map (fun p => SEntry.kv p.1 p.2)
        ++ n.children.map (fun c => SEntry.child c.name (childDesc c))
        ++ n.removedChildren.map (fun c => SEntry.removed c.name)
    ∧ ∀ c ∈ n.children,
        (c.value.hasValue = true →
          dlookup "value".toList (childDesc c) = some (c.value.val.getD JVal.null) ∧
          dlookup "ts".toList (childDesc c) = some (JVal.str c.value.updatedAt)) ∧
        (c.value.hasValue = false →
          childDesc c = dupdate c.config c.attributes) ∧
        (c.value.hasValue = false →
          "value".toList ∉ keysOf (dupdate c.config c.attributes) →
          dlookup "value".toList (childDesc c) = none) ∧
        (c.value.hasValue = false →
          "ts".toList ∉ keysOf (dupdate c.config c.attributes) →
          dlookup "ts".toList (childDesc c) = none) := by
  refine ⟨stream_eq n, ?_⟩
  intro c _
  refine ⟨?_, ?_, ?_, ?_⟩
  · intro hv
    unfold childDesc
    rw [hv]
    simp only [if_true, dupdate, List.foldl]
    constructor
    · rw [dlookup_dinsert_ne (by decide) _ _, dlookup_dinsert_self]
    · rw [dlookup_dinsert_self]
  · intro hv
    unfold childDesc
    rw [hv]
    simp [dupdate]
  · intro hv hk
    unfold childDesc
    rw [hv]
    simp only [Bool.false_eq_true, if_false]
    exact dlookup_eq_none_of_not_mem hk
  · intro hv hk
    unfold childDesc
    rw [hv]
    simp only [Bool.false_eq_true, if_false]
    exact dlookup_eq_none_of_not_mem hk

def sampleValued : Node := Node.mk
  { name := ['v'], path := "/n/v".toList, standalone := false, transient := false,
    value := { val := some (JVal.int 7), typ := none, updatedAt := ['T'] },
    config := [("$is".toList, JVal.str "node".toList)], attributes := [],
    subscribers := [], streams := [] } [] []

def samplePlain : Node := Node.mk
  { name := ['p'], path := "/n/p".toList, standalone := false, transient := false,
    value := TValue.empty, config := [("$is".toList, JVal.str "node".toList)],
    attributes := [], subscribers := [], streams := [] } [] []

def sampleTomb : Node := Node.mk
  { name := ['r'], path := "/n/r".toList, standalone := false, transient := false,
    value := TValue.empty, config := [], attributes := [], subscribers := [],
    streams := [] } [] []

/-- The spec's structural-batch example shape: two config entries, one
attribute, two children (one with a value, one without), one pending
removal. -/
def sampleParent : Node := Node.mk
  { name := ['n'], path := "/n".toList, standalone := false, transient := false,
    value := TValue.empty,
    config := [("$is".toList, JVal.str "node".toList),
               ("$type".toList, JVal.str "int".toList)],
    attributes := [("@a".toList, JVal.int 1)], subscribers := [], streams := [] }
  [sampleValued, samplePlain] [sampleTomb]

/-- Witness for C3 at the spec's example shape. -/
theorem stream_batch_order_witness :
    (sampleParent.stream).1
        = [SEntry.kv "$is".toList (JVal.str "node".toList),
           SEntry.kv "$type".toList (JVal.str "int".toList),
           SEntry.kv "@a".toList (JVal.int 1),
           SEntry.child ['v'] (childDesc sampleValued),
           SEntry.child ['p'] (childDesc samplePlain),
           SEntry.removed ['r']]
      ∧ dlookup "value".toList (childDesc sampleValued) = some (JVal.int 7)
      ∧ dlookup "ts".toList (childDesc sampleValued) = some (JVal.str ['T'])
      ∧ childDesc samplePlain = dupdate samplePlain.config samplePlain.attributes
      ∧ dlookup "value".toList (childDesc samplePlain) = none := by
  have h := stream_batch_order sampleParent
  have hv : sampleValued ∈ sampleParent.children := by
    simp [sampleParent]
  have hp : samplePlain ∈ sampleParent.children := by
    simp [sampleParent]
  refine ⟨h.1.trans (by decide), ?_, ?_, ?_, ?_⟩
  · exact ((h.2 sampleValued hv).1 rfl).1
  · exact ((h.2 sampleValued hv).1 rfl).2
  · exact (h.2 samplePlain hp).2.1 rfl
  · exact (h.2 samplePlain hp).2.2.1 rfl (by decide)

@[simp] theorem Node.data_withChildren (n : Node) (c : List Node) :
    (n.withChildren c).data = n.data := by cases n; rfl

@[simp] theorem Node.children_withChildren (n : Node) (c : List Node) :
    (n.withChildren c).children = c := by cases n; rfl

@[simp] theorem Node.removed_withChildren (n : Node) (c : List Node) :
    (n.withChildren c).removedChildren = n.removedChildren := by cases n; rfl

@[simp] theorem Node.data_withRemoved (n : Node) (r : List Node) :
    (n.withRemoved r).data = n.data := by cases n; rfl

@[simp] theorem Node.children_withRemoved (n : Node) (r : List Node) :
    (n.withRemoved r).children = n.children := by cases n; rfl

@[simp] theorem Node.removed_withRemoved (n : Node) (r : List Node) :
    (n.withRemoved r).removedChildren = r := by cases n; rfl

theorem Node.streams_withChildren (n : Node) (c : List Node) :
    (n.withChildren c).streams = n.streams := by cases n; rfl

theorem Node.streams_withRemoved (n : Node) (r : List Node) :
    (n.withRemoved r).streams = n.streams := by cases n; rfl

/-- `update_subscribers` with no open streams makes no transport call and
leaves the node untouched. -/
theorem updateSubscribers_nil {n : Node} (h : n.streams = []) :
    n.updateSubscribers = ([], n) := by
  simp [Node.updateSubscribers, h]

theorem find?_first {α : Type} (p : α → Bool) :
    ∀ (pre : List α) (c : α) (post : List α), (∀ d ∈ pre, p d = false) → p c = true →
      (pre ++ c :: post).find? p = some c
  | [], c, post, _, hc => by simp [List.find?, hc]
  | d :: rest, c, post, hpre, hc => by
    have hd : p d = false := hpre d (by simp)
    simp only [List.cons_append, List.find?, hd]
    exact find?_first p rest c post (fun x hx => hpre x (by simp [hx])) hc

theorem eraseP_first {α : Type} (p : α → Bool) :
    ∀ (pre : List α) (c : α) (post : List α), (∀ d ∈ pre, p d = false) → p c = true →
      (pre ++ c :: post).eraseP p = pre ++ post
  | [], c, post, _, hc => by simp [List.eraseP_cons, hc]
  | d :: rest, c, post, hpre, hc => by
    have hd : p d = false := hpre d (by simp)
    simp only [List.cons_append, List.eraseP_cons, hd]
    simp [eraseP_first p rest c post (fun x hx => hpre x (by simp [hx])) hc]

theorem filter_map_eq_nil {α β : Type} (p : β → Bool) (f : α → β) :
    ∀ (l : List α), (∀ a ∈ l, p (f a) = false) → (l.map f).filter p = []
  | [], _ => rfl
  | a :: rest, h => by
    have ha : p (f a) = false := h a (by simp)
    simp only [List.map_cons, List.filter_cons, ha]
    simp [filter_map_eq_nil p f rest (fun x hx => h x (by simp [hx]))]

/-- Whether a batch entry is the removal tombstone for `nm`. -/
def isRemovedNamed (nm : Str) : SEntry → Bool
  | .removed x => decide (x = nm)
  | _ => false

/-- Whether a batch entry is a removal tombstone at all. -/
def isRemovedB : SEntry → Bool
  | .removed _ => true
  | _ => false

/-- C4: `remove_child` on an absent name fails and leaves the node unchanged;
on a present name the child moves from `children` to the tombstone list, the
next structural read reports exactly one removal tombstone for it (when no
open stream consumed the batch inside `remove_child` itself, i.e. `streams`
is empty, and no older tombstone carries the same name), and a second
structural read reports no removal at all. -/
theorem removeChild_spec (n : Node) (nm : Str) :
    ((∀ c ∈ n.children, c.name ≠ nm) → n.removeChild nm = (false, [], n)) ∧
    (∀ pre c post, n.children = pre ++ c :: post → c.name = nm →
      (∀ d ∈ pre, d.name ≠ nm) → n.streams = [] →
      ∃ n2, n.removeChild nm = (true, [], n2) ∧
        n2.children = pre ++ post ∧
        n2.removedChildren = n.removedChildren ++ [c] ∧
        ((∀ d ∈ n.removedChildren, d.name ≠ nm) →
          (n2.stream).1.filter (isRemovedNamed nm) = [SEntry.removed nm]) ∧
        ((n2.stream).2.stream.1.filter isRemovedB = [])) := by
  constructor
  · intro habs
    have hf : n.children.find? (fun c => decide (c.name = nm)) = none := by
      rw [List.find?_eq_none]
      intro x hx
      simp [habs x hx]
    simp [Node.removeChild, hf]
  · intro pre c post hch hcn hpre hstr
    have hf : n.children.find? (fun c => decide (c.name = nm)) = some c := by
      rw [hch]
      exact find?_first _ pre c post
        (fun d hd => by simp [hpre d hd]) (by simp [hcn])
    have he : n.children.eraseP (fun d => decide (d.name = nm)) = pre ++ post := by
      rw [hch]
      exact eraseP_first _ pre c post
        (fun d hd => by simp [hpre d hd]) (by simp [hcn])
    set n2 : Node := (n.withChildren (n.children.eraseP
      (fun d => decide (d.name = nm)))).withRemoved (n.removedChildren ++ [c]) with hn2
    have hstr2 : n2.streams = [] := by
      rw [hn2, Node.streams_withRemoved, Node.streams_withChildren, hstr]
    refine ⟨n2, ?_, ?_, ?_, ?_, ?_⟩
    · simp [Node.removeChild, hf, updateSubscribers_nil hstr2]
    · simp [hn2, he]
    · simp [hn2]
    · intro hold
      rw [stream_eq]
      simp only [List.filter_append]
      rw [filter_map_eq_nil _ _ _ (fun a _ => by simp [isRemovedNamed]),
        filter_map_eq_nil _ _ _ (fun a _ => by simp [isRemovedNamed]),
        filter_map_eq_nil _ _ _ (fun a _ => by simp [isRemovedNamed])]
      have hrem : n2.removedChildren = n.removedChildren ++ [c] := by simp [hn2]
      rw [hrem, List.map_append, List.filter_append,
        filter_map_eq_nil _ _ _ (fun a ha => by
          simp [isRemovedNamed, hold a ha])]
      simp [isRemovedNamed, hcn]
    · rw [stream_snd, stream_eq]
      simp only [Node.removed_withRemoved, List.map_nil, List.append_nil,
        List.filter_append]
      rw [filter_map_eq_nil _ _ _ (fun a _ => by simp [isRemovedB]),
        filter_map_eq_nil _ _ _ (fun a _ => by simp [isRemovedB]),
        filter_map_eq_nil _ _ _ (fun a _ => by simp [isRemovedB])]
      simp

/-- Witness for C4: an absent name fails without mutation; a present name
moves the child to the tombstone list, the next read reports exactly its
removal, and the read after that reports none. -/
theorem removeChild_spec_witness :
    (sampleParent.removeChild "zz".toList = (false, [], sampleParent)) ∧
    (∃ n2, sampleParent.removeChild ['p'] = (true, [], n2) ∧
      n2.children = [sampleValued] ++ [] ∧
      n2.removedChildren = sampleParent.removedChildren ++ [samplePlain] ∧
      (n2.stream).1.filter (isRemovedNamed ['p']) = [SEntry.removed ['p']] ∧
      (n2.stream).2.stream.1.filter isRemovedB = []) := by
  constructor
  · exact (removeChild_spec sampleParent "zz".toList).1 (by decide)
  · obtain ⟨n2, h1, h2, h3, h4, h5⟩ :=
      (removeChild_spec sampleParent ['p']).2 [sampleValued] samplePlain []
        rfl (by decide) (by decide) (by decide)
    exact ⟨n2, h1, h2, h3, h4 (by decide), h5⟩

@[simp] theorem Node.data_withData (n : Node) (d : NodeData) :
    (n.withData d).data = d := by cases n; rfl

theorem withRemoved_eq_self {n : Node} (h : n.removedChildren = []) :
    n.withRemoved [] = n := by
  cases n with
  | mk d c r =>
    simp only [Node.removedChildren_mk] at h
    rw [h]
    rfl

theorem usStep_node_path (acc : List RespMsg × Node) (sid : Nat) :
    (usStep acc sid).2.path = acc.2.path := by
  simp [usStep, stream_snd, Node.path]

theorem usFoldl_path : ∀ (sids : List Nat) (acc : List RespMsg × Node),
    (sids.foldl usStep acc).2.path = acc.2.path
  | [], acc => rfl
  | s :: rest, acc => by
    rw [List.foldl_cons, usFoldl_path rest (usStep acc s), usStep_node_path]

/-- C9: the path of a node built with a parent is `parent.path ++ "/" ++ name`
(whenever the parent's path does not itself end in a slash, which holds for
every path derived from slash-free names), the root's path is empty or
`/name`, and no embedded operation ever changes a node's `path` field. -/
theorem node_path_derivation :
    (∀ (name parentPath : Str), endsWithSlash parentPath = false →
      (newNode name parentPath).path = parentPath ++ '/' :: name) ∧
    rootPath none = [] ∧
    (∀ nm : Str, rootPath (some nm) = '/' :: nm) ∧
    (∀ (n : Node) (k : Str) (v : JVal), (n.setConfig k v).path = n.path) ∧
    (∀ (n : Node) (k : Str) (v : JVal), (n.setAttribute k v).path = n.path) ∧
    (∀ (n : Node) (t : JVal), (n.setType t).path = n.path) ∧
    (∀ (n : Node) (v : JVal) (a : Bool) (now : Str),
      (n.setValue v a now).node.path = n.path) ∧
    (∀ (n c m : Node), n.addChild c = some m → m.path = n.path) ∧
    (∀ (n : Node) (nm : Str), ((n.removeChild nm).2.2).path = n.path) ∧
    (∀ n : Node, (n.stream).2.path = n.path) ∧
    (∀ n : Node, (n.updateSubscribers).2.path = n.path) := by
  refine ⟨?_, rfl, fun _ => rfl, ?_, ?_, ?_, ?_, ?_, ?_, ?_, ?_⟩
  · intro name parentPath h
    simp [newNode, Node.path, childPath, h]
  · intro n k v
    simp [Node.setConfig, Node.path]
  · intro n k v
    simp [Node.setAttribute, Node.path]
  · intro n t
    simp [Node.setType, Node.setConfig, Node.path]
  · intro n v a now
    simp only [Node.setValue]
    split <;> simp [Node.path]
  · intro n c m h
    unfold Node.addChild at h
    split at h
    · cases h
    · cases h
      simp [Node.path]
  · intro n nm
    unfold Node.removeChild
    split
    · rfl
    · show (Node.updateSubscribers _).2.path = n.path
      rw [Node.updateSubscribers, usFoldl_path]
      simp [Node.path, Node.streams_withRemoved, Node.streams_withChildren]
  · intro n
    simp [stream_snd, Node.path]
  · intro n
    rw [Node.updateSubscribers, usFoldl_path]

/-- Witness for C9: concrete path derivations and path stability. -/
theorem node_path_derivation_witness :
    (newNode "kid".toList "/a".toList).path = "/a/kid".toList ∧
    (sampleParent.setConfig "$x".toList (JVal.int 1)).path = sampleParent.path ∧
    ((sampleParent.removeChild ['p']).2.2).path = sampleParent.path := by
  refine ⟨?_, ?_, ?_⟩
  · exact node_path_derivation.1 "kid".toList "/a".toList (by decide)
  · exact node_path_derivation.2.2.2.1 sampleParent "$x".toList (JVal.int 1)
  · exact node_path_derivation.2.2.2.2.2.2.2.2.1 sampleParent ['p']

theorem usFoldl_drained : ∀ (sids : List Nat) (accl : List RespMsg) (m : Node),
    m.removedChildren = [] →
    List.foldl usStep (accl, m) sids
      = (accl ++ sids.map (fun s => { rid := s, updates := (m.stream).1 }), m)
  | [], accl, m, _ => by simp
  | s :: rest, accl, m, h => by
    have hstep : usStep (accl, m) s
        = (accl ++ [{ rid := s, updates := (m.stream).1 }], m) := by
      simp only [usStep, stream_snd]
      rw [withRemoved_eq_self h]
    rw [List.foldl_cons, hstep, usFoldl_drained rest _ m h]
    simp

theorem drained_stream_no_removed {m : Node} (h : m.removedChildren = []) :
    (m.stream).1.filter isRemovedB = [] := by
  rw [stream_eq, h]
  simp only [List.map_nil, List.append_nil, List.filter_append]
  rw [filter_map_eq_nil _ _ _ (fun a _ => by simp [isRemovedB]),
    filter_map_eq_nil _ _ _ (fun a _ => by simp [isRemovedB]),
    filter_map_eq_nil _ _ _ (fun a _ => by simp [isRemovedB])]
  simp

theorem filter_map_eq_self {α β : Type} (p : β → Bool) (f : α → β) :
    ∀ (l : List α), (∀ a ∈ l, p (f a) = true) → (l.map f).filter p = l.map f
  | [], _ => rfl
  | a :: rest, h => by
    have ha : p (f a) = true := h a (by simp)
    simp only [List.map_cons, List.filter_cons, ha]
    simp [filter_map_eq_self p f rest (fun x hx => h x (by simp [hx]))]

/-- C10: with at least two open stream ids, one structural notification calls
`stream()` once per id; only the batch for the first id carries the removal
tombstones (exactly one per drained `removed_children` entry), every later
batch carries none, because the first `stream()` call cleared the list. -/
theorem updateSubscribers_drains_once (n : Node) (s1 : Nat) (srest : List Nat)
    (h : n.streams = s1 :: srest) :
    (n.updateSubscribers).1
      = { rid := s1, updates := (n.stream).1 }
        :: srest.map (fun s => { rid := s, updates := ((n.withRemoved []).stream).1 })
    ∧ (n.stream).1.filter isRemovedB
        = n.removedChildren.map (fun c => SEntry.removed c.name)
    ∧ (∀ msg ∈ (n.updateSubscribers).1.tail,
        msg.updates.filter isRemovedB = []) := by
  have hfirst : usStep ([], n) s1
      = ([{ rid := s1, updates := (n.stream).1 }], n.withRemoved []) := by
    simp [usStep, stream_snd]
  have hdr : (n.withRemoved []).removedChildren = [] := by simp
  have hmain : (n.updateSubscribers).1
      = { rid := s1, updates := (n.stream).1 }
        :: srest.map (fun s => { rid := s, updates := ((n.withRemoved []).stream).1 }) := by
    rw [Node.updateSubscribers, h, List.foldl_cons, hfirst,
      usFoldl_drained srest _ _ hdr]
    simp
  refine ⟨hmain, ?_, ?_⟩
  · rw [stream_eq]
    simp only [List.filter_append]
    rw [filter_map_eq_nil _ _ _ (fun a _ => by simp [isRemovedB]),
      filter_map_eq_nil _ _ _ (fun a _ => by simp [isRemovedB]),
      filter_map_eq_nil _ _ _ (fun a _ => by simp [isRemovedB]),
      filter_map_eq_self _ _ _ (fun a _ => by simp [isRemovedB])]
    simp
  · intro msg hmsg
    rw [hmain] at hmsg
    simp only [List.tail_cons, List.mem_map] at hmsg
    obtain ⟨s, _, rfl⟩ := hmsg
    exact drained_stream_no_removed hdr

/-- A node with two open streams and one pending removal. -/
def sampleTwoStreams : Node := Node.mk
  { name := ['n'], path := "/n".toList, standalone := false, transient := false,
    value := TValue.empty, config := [("$is".toList, JVal.str "node".toList)],
    attributes := [], subscribers := [], streams := [1, 2] } [] [sampleTomb]

/-- Witness for C10: the first batch reports the removal, the second does
not. -/
theorem updateSubscribers_drains_once_witness :
    (sampleTwoStreams.updateSubscribers).1
        = [{ rid := 1, updates := (sampleTwoStreams.stream).1 },
           { rid := 2, updates := ((sampleTwoStreams.withRemoved []).stream).1 }]
      ∧ (sampleTwoStreams.stream).1.filter isRemovedB = [SEntry.removed ['r']]
      ∧ ∀ msg ∈ (sampleTwoStreams.updateSubscribers).1.tail,
          msg.updates.filter isRemovedB = [] := by
  refine ⟨?_, ?_, ?_⟩
  · exact (updateSubscribers_drains_once sampleTwoStreams 1 [2] rfl).1
  · exact ((updateSubscribers_drains_once sampleTwoStreams 1 [2] rfl).2.1).trans (by decide)
  · exact (updateSubscribers_drains_once sampleTwoStreams 1 [2] rfl).2.2

theorem b64c_ne_eq (n : Nat) : b64c n ≠ '=' := by
  unfold b64c
  cases h : b64alphabet[n]? with
  | none => simp [List.getD, h]
  | some c =>
    have hmem : c ∈ b64alphabet := List.getElem?_mem h
    have : c ≠ '=' := by
      intro he
      rw [he] at hmem
      revert hmem
      decide
    simp [List.getD, h, this]

theorem b64_structure : ∀ bytes : List Nat, ∃ body pads : Str,
    b64urlEncode bytes = body ++ pads ∧ (∀ c ∈ body, c ≠ '=') ∧ (∀ c ∈ pads, c = '=')
  | b1 :: b2 :: b3 :: rest => by
    obtain ⟨body, pads, he, hb, hp⟩ := b64_structure rest
    refine ⟨b64c (b1 / 4) :: b64c ((b1 % 4) * 16 + b2 / 16) ::
      b64c ((b2 % 16) * 4 + b3 / 64) :: b64c (b3 % 64) :: body, pads, ?_, ?_, hp⟩
    · simp [b64urlEncode, he]
    · intro c hc
      simp at hc
      rcases hc with rfl | rfl | rfl | rfl | hmem
      · exact b64c_ne_eq _
      · exact b64c_ne_eq _
      · exact b64c_ne_eq _
      · exact b64c_ne_eq _
      · exact hb c hmem
  | [b1, b2] => by
    refine ⟨[b64c (b1 / 4), b64c ((b1 % 4) * 16 + b2 / 16), b64c ((b2 % 16) * 4)],
      ['='], rfl, ?_, by simp⟩
    intro c hc
    simp at hc
    rcases hc with rfl | rfl | rfl
    · exact b64c_ne_eq _
    · exact b64c_ne_eq _
    · exact b64c_ne_eq _
  | [b1] => by
    refine ⟨[b64c (b1 / 4), b64c ((b1 % 4) * 16)], ['=', '='], rfl, ?_, by simp⟩
    intro c hc
    simp at hc
    rcases hc with rfl | rfl
    · exact b64c_ne_eq _
    · exact b64c_ne_eq _
  | [] => ⟨[], [], rfl, by simp, by simp⟩

theorem dropWhile_eq_self_of_all {p : Char → Bool} {l : Str}
    (h : ∀ c ∈ l, p c = false) : l.dropWhile p = l := by
  cases l with
  | nil => rfl
  | cons c rest => simp [List.dropWhile_cons, h c (by simp)]

/-- C5: the auth parameter is base64url of SHA-256 of `salt ++ secret` with
the `=` padding stripped (the source removes every `=`, the spec strips the
trailing ones; base64 output only carries `=` as trailing padding, so the two
agree), and on salt `"abc"`, secret `"secret"` it equals the fixed vector. -/
theorem getAuth_spec :
    (∀ salt secret : List Nat,
      getAuth salt secret = stripPad (b64urlEncode (sha256 (salt ++ secret)))) ∧
    getAuth ("abc".toList.map Char.toNat) ("secret".toList.map Char.toNat)
      = "pCF4t3MnP1yfJDh_vqVGr1N9CLjAayNjHkSHi5zkf0k".toList := by
  constructor
  · intro salt secret
    obtain ⟨body, pads, he, hb, hp⟩ := b64_structure (sha256 (salt ++ secret))
    unfold getAuth stripPad
    rw [he, List.filter_append, List.reverse_append]
    have h1 : body.filter (fun c => decide (c ≠ '=')) = body :=
      List.filter_eq_self.mpr (fun c hc => by simp [hb c hc])
    have h2 : pads.filter (fun c => decide (c ≠ '=')) = [] := by
      rw [List.filter_eq_nil_iff]
      intro c hc
      simp [hp c hc]
    have h3 : (pads.reverse ++ body.reverse).dropWhile (fun c => decide (c = '='))
        = body.reverse.dropWhile (fun c => decide (c = '=')) :=
      dropWhile_append_all _ (fun c hc => by simp [hp c (List.mem_reverse.mp hc)])
    have h4 : body.reverse.dropWhile (fun c => decide (c = '=')) = body.reverse :=
      dropWhile_eq_self_of_all
        (fun c hc => by simp [hb c (List.mem_reverse.mp hc)])
    rw [h1, h2, h3, h4, List.reverse_reverse, List.append_nil]
  · decide

theorem replaceHttpWs_http (r : Str) :
    replaceHttpWs ('h' :: 't' :: 't' :: 'p' :: r) = 'w' :: 's' :: replaceHttpWs r := by
  simp [replaceHttpWs]

theorem hasHttp_cons (c : Char) (rest : Str) :
    hasHttp (c :: rest)
      = ((decide (c = 'h') && "ttp".toList.isPrefixOf rest) || hasHttp rest) := rfl

theorem replaceHttpWs_noop : ∀ {s : Str}, hasHttp s = false → replaceHttpWs s = s := by
  intro s
  induction s with
  | nil => intro _; rfl
  | cons c1 t1 ih =>
    intro h
    rw [hasHttp_cons] at h
    have ht1 : hasHttp t1 = false := by
      rcases Bool.or_eq_false_iff.mp h with ⟨_, h2⟩
      exact h2
    have hcons : replaceHttpWs (c1 :: t1) = c1 :: replaceHttpWs t1 := by
      match t1 with
      | [] => rfl
      | [x] => rfl
      | [x, y] => rfl
      | x :: y :: z :: r =>
        show replaceHttpWs (c1 :: x :: y :: z :: r) = _
        rw [replaceHttpWs]
        rw [if_neg]
        intro ⟨e1, e2, e3, e4⟩
        subst e1 e2 e3 e4
        rcases Bool.or_eq_false_iff.mp h with ⟨h1, _⟩
        simp [List.isPrefixOf] at h1
    rw [hcons, ih ht1]

theorem hasHttp_all_ne {s : Str} (h : ∀ c ∈ s, c ≠ 'h') : hasHttp s = false := by
  induction s with
  | nil => rfl
  | cons c rest ih =>
    rw [hasHttp_cons]
    simp [h c (by simp), ih (fun x hx => h x (by simp [hx]))]

theorem hasHttp_append_front {pre s : Str} (hp : ∀ c ∈ pre, c ≠ 'h')
    (hs : hasHttp s = false) : hasHttp (pre ++ s) = false := by
  induction pre with
  | nil => simpa
  | cons c rest ih =>
    rw [List.cons_append, hasHttp_cons]
    simp [hp c (by simp), ih (fun x hx => hp x (by simp [hx]))]

theorem ttp_boundary : ∀ {a : Str} {b : Str},
    "ttp".toList.isPrefixOf (a ++ b) = true → "ttp".toList.isPrefixOf a = false →
    b.head? = some 't' ∨ b.head? = some 'p'
  | [], b, hab, _ => by
    cases b with
    | nil => simp [List.isPrefixOf] at hab
    | cons hd tl =>
      left
      simp [List.isPrefixOf] at hab
      simp [← hab.1]
  | [x], b, hab, ha => by
    cases b with
    | nil => simp [List.isPrefixOf] at hab
    | cons hd tl =>
      left
      simp [List.isPrefixOf] at hab
      simp [← hab.2.1]
  | [x, y], b, hab, ha => by
    cases b with
    | nil => simp [List.isPrefixOf] at hab
    | cons hd tl =>
      right
      simp [List.isPrefixOf] at hab
      simp [← hab.2.2]
  | x :: y :: z :: a2, b, hab, ha => by
    simp [List.isPrefixOf] at hab ha
    exact absurd hab.2.2 (ha hab.1 hab.2.1)

theorem hasHttp_append {a b : Str} (ha : hasHttp a = false) (hb : hasHttp b = false)
    (hh : b.head? ≠ some 't' ∧ b.head? ≠ some 'p') : hasHttp (a ++ b) = false := by
  induction a with
  | nil => simpa
  | cons c a2 ih =>
    rw [hasHttp_cons] at ha
    rcases Bool.or_eq_false_iff.mp ha with ⟨h1, h2⟩
    rw [List.cons_append, hasHttp_cons]
    rw [Bool.or_eq_false_iff]
    refine ⟨?_, ih h2⟩
    rw [Bool.and_eq_false_iff]
    by_cases hc : c = 'h'
    · right
      by_cases hpre : "ttp".toList.isPrefixOf (a2 ++ b) = true
      · rcases Bool.and_eq_false_iff.mp h1 with hcf | haf
        · simp [hc] at hcf
        · rcases ttp_boundary hpre haf with ht | hp
          · exact absurd ht hh.1
          · exact absurd hp hh.2
      · exact Bool.eq_false_iff.mpr hpre
    · left
      simp [hc]

theorem afterDoubleSlash_ws (x : Str) :
    afterDoubleSlash ('w' :: 's' :: ':' :: '/' :: '/' :: x) = some x := by
  simp [afterDoubleSlash, List.isPrefixOf]

theorem afterDoubleSlash_wss (x : Str) :
    afterDoubleSlash ('w' :: 's' :: 's' :: ':' :: '/' :: '/' :: x) = some x := by
  simp [afterDoubleSlash, List.isPrefixOf]

theorem isDigit_ne {c : Char} (h : c.isDigit = true) :
    c ≠ 'h' ∧ c ≠ '/' ∧ c ≠ '?' ∧ c ≠ '#' ∧ c ≠ ':' := by
  refine ⟨?_, ?_, ?_, ?_, ?_⟩ <;> (intro he; subst he; revert h; decide)

/-- The scheme spelled in the broker address. -/
def schemePart (https : Bool) : Str := if https then "https".toList else "http".toList

/-- The websocket scheme the replacement produces. -/
def wsPart (https : Bool) : Str := if https then "wss".toList else "ws".toList

/-- An optional `:port` suffix of the authority. -/
def portPart : Option Str → Str
  | none => []
  | some d => ':' :: d

/-- The port the claim assigns: the explicit one, else 80. -/
def portVal : Option Str → Nat
  | none => 80
  | some d => digitsVal d

/-- C6 counterexample: on broker address `http://h/conn` with device id `d`
and no authentication, the code builds `ws://h/ws?dsId=d` — it strips the
last five characters and appends a `/ws` path — while the claim's description
(strip the trailing path segment, rewrite the scheme, append `?dsId=`) yields
`ws://h?dsId=d`. -/
theorem getUrl_claim_counterexample :
    getUrl "http://h/conn".toList ['d'] false [] none
        ≠ getUrlClaim "http://h/conn".toList ['d'] false []
      ∧ (getUrl "http://h/conn".toList ['d'] false [] none).1 = "ws://h/ws?dsId=d".toList
      ∧ (getUrlClaim "http://h/conn".toList ['d'] false []).1 = "ws://h?dsId=d".toList := by
  exact ⟨by decide, by decide, by decide⟩

/-- C6 (amended): for a broker address `scheme://host[:port]/conn` whose host
carries no `http` substring and no delimiter characters, and whose optional
port is a nonempty digit run, `get_url` removes the five-character `/conn`
suffix, replaces every `http` occurrence by `ws` (so `http→ws`, `https→wss`),
appends `/ws?dsId=<dsid>`, appends `&auth=<token>` exactly when
authentication is required (token fragment absent), and returns the URL's
explicit port, defaulting to 80. -/
theorem getUrl_amended (https : Bool) (host dsid authTok : Str) (needsAuth : Bool)
    (pd : Option Str)
    (h1 : hasHttp host = false)
    (h2 : ∀ c ∈ host, c ≠ '/' ∧ c ≠ '?' ∧ c ≠ '#' ∧ c ≠ ':')
    (h3 : ∀ d, pd = some d → d ≠ [] ∧ ∀ c ∈ d, c.isDigit = true) :
    getUrl (schemePart https ++ "://".toList ++ host ++ portPart pd ++ "/conn".toList)
        dsid needsAuth authTok none
      = (wsPart https ++ "://".toList ++ host ++ portPart pd ++ "/ws?dsId=".toList
          ++ dsid ++ (if needsAuth then "&auth=".toList ++ authTok else []),
        portVal pd) := by
  have hppNoH : ∀ c ∈ portPart pd, c ≠ 'h' := by
    intro c hc
    cases pd with
    | none => simp [portPart] at hc
    | some d =>
      simp [portPart] at hc
      rcases hc with rfl | hcd
      · decide
      · exact (isDigit_ne ((h3 d rfl).2 c hcd)).1
  have hhp : hasHttp (host ++ portPart pd) = false := by
    cases pd with
    | none => simpa [portPart] using h1
    | some d =>
      refine hasHttp_append h1 (hasHttp_all_ne hppNoH) ?_
      simp [portPart]
  have hS : (schemePart https ++ "://".toList ++ host ++ portPart pd ++ "/conn".toList).take
        ((schemePart https ++ "://".toList ++ host ++ portPart pd ++ "/conn".toList).length - 5)
      = schemePart https ++ "://".toList ++ host ++ portPart pd := by
    have hl : (schemePart https ++ "://".toList ++ host ++ portPart pd ++ "/conn".toList).length - 5
        = (schemePart https ++ "://".toList ++ host ++ portPart pd).length := by
      simp
      omega
    rw [hl]
    have := List.take_left (schemePart https ++ "://".toList ++ host ++ portPart pd)
      "/conn".toList
    simpa using this
  have hrepl : replaceHttpWs (schemePart https ++ "://".toList ++ host ++ portPart pd)
      = wsPart https ++ "://".toList ++ host ++ portPart pd := by
    cases https with
    | false =>
      have hshape : schemePart false ++ "://".toList ++ host ++ portPart pd
          = 'h' :: 't' :: 't' :: 'p' :: (':' :: '/' :: '/' :: (host ++ portPart pd)) := by
        simp [schemePart]
      have hnoop : hasHttp (':' :: '/' :: '/' :: (host ++ portPart pd)) = false := by
        have := @hasHttp_append_front [':', '/', '/'] (host ++ portPart pd) (by decide) hhp
        simpa using this
      rw [hshape, replaceHttpWs_http, replaceHttpWs_noop hnoop]
      simp [wsPart]
    | true =>
      have hshape : schemePart true ++ "://".toList ++ host ++ portPart pd
          = 'h' :: 't' :: 't' :: 'p' :: ('s' :: ':' :: '/' :: '/' :: (host ++ portPart pd)) := by
        simp [schemePart]
      have hnoop : hasHttp ('s' :: ':' :: '/' :: '/' :: (host ++ portPart pd)) = false := by
        have := @hasHttp_append_front ['s', ':', '/', '/'] (host ++ portPart pd) (by decide) hhp
        simpa using this
      rw [hshape, replaceHttpWs_http, replaceHttpWs_noop hnoop]
      simp [wsPart]
  have huri : (getUrl (schemePart https ++ "://".toList ++ host ++ portPart pd
        ++ "/conn".toList) dsid needsAuth authTok none).1
      = wsPart https ++ "://".toList ++ host ++ portPart pd ++ "/ws?dsId=".toList
        ++ dsid ++ (if needsAuth then "&auth=".toList ++ authTok else []) := by
    simp only [getUrl, hS, hrepl]
    cases needsAuth <;> simp
  have hpred : ∀ c ∈ host ++ portPart pd,
      (decide (c ≠ '/' ∧ c ≠ '?' ∧ c ≠ '#') : Bool) = true := by
    intro c hc
    rcases List.mem_append.mp hc with hm | hm
    · simp [(h2 c hm).1, (h2 c hm).2.1, (h2 c hm).2.2]
    · cases pd with
      | none => simp [portPart] at hm
      | some d =>
        simp [portPart] at hm
        rcases hm with rfl | hcd
        · decide
        · have := isDigit_ne ((h3 d rfl).2 c hcd)
          simp [this.2.1, this.2.2.1, this.2.2.2.1]
  have hnet : netlocOf (wsPart https ++ "://".toList ++ host ++ portPart pd
        ++ "/ws?dsId=".toList ++ dsid
        ++ (if needsAuth then "&auth=".toList ++ authTok else []))
      = host ++ portPart pd := by
    have htail : List.takeWhile (fun c => decide (c ≠ '/' ∧ c ≠ '?' ∧ c ≠ '#'))
        ('/' :: ("ws?dsId=".toList ++ dsid
          ++ (if needsAuth then "&auth=".toList ++ authTok else []))) = [] := by
      simp [List.takeWhile_cons]
    cases https with
    | false =>
      have hshape : wsPart false ++ "://".toList ++ host ++ portPart pd
            ++ "/ws?dsId=".toList ++ dsid
            ++ (if needsAuth then "&auth=".toList ++ authTok else [])
          = 'w' :: 's' :: ':' :: '/' :: '/' :: ((host ++ portPart pd)
              ++ ('/' :: ("ws?dsId=".toList ++ dsid
                ++ (if needsAuth then "&auth=".toList ++ authTok else [])))) := by
        simp [wsPart]
      rw [hshape]
      unfold netlocOf
      rw [afterDoubleSlash_ws]
      simp only [Option.getD_some]
      rw [takeWhile_append_all _ hpred, htail, List.append_nil]
    | true =>
      have hshape : wsPart true ++ "://".toList ++ host ++ portPart pd
            ++ "/ws?dsId=".toList ++ dsid
            ++ (if needsAuth then "&auth=".toList ++ authTok else [])
          = 'w' :: 's' :: 's' :: ':' :: '/' :: '/' :: ((host ++ portPart pd)
              ++ ('/' :: ("ws?dsId=".toList ++ dsid
                ++ (if needsAuth then "&auth=".toList ++ authTok else [])))) := by
        simp [wsPart]
      rw [hshape]
      unfold netlocOf
      rw [afterDoubleSlash_wss]
      simp only [Option.getD_some]
      rw [takeWhile_append_all _ hpred, htail, List.append_nil]
  have hport : (urlPort (wsPart https ++ "://".toList ++ host ++ portPart pd
        ++ "/ws?dsId=".toList ++ dsid
        ++ (if needsAuth then "&auth=".toList ++ authTok else []))).getD 80
      = portVal pd := by
    unfold urlPort
    rw [hnet]
    cases pd with
    | none =>
      have hmem : (host ++ portPart none).contains ':' = false := by
        simp only [portPart, List.append_nil, List.contains, List.elem_eq_mem]
        exact decide_eq_false (fun hm => (h2 ':' hm).2.2.2 rfl)
      rw [hmem]
      simp [portVal]
    | some d =>
      have hd := h3 d rfl
      have hmem : (host ++ portPart (some d)).contains ':' = true := by
        simp only [portPart, List.contains, List.elem_eq_mem]
        exact decide_eq_true (List.mem_append.mpr (Or.inr (List.mem_cons_self _ _)))
      have hrun : portRun (host ++ portPart (some d)) = d := by
        unfold portRun
        have hrev : (host ++ portPart (some d)).reverse
            = d.reverse ++ (':' :: host.reverse) := by
          simp [portPart]
        rw [hrev, takeWhile_append_all _ (fun c hc => by
          simp [(isDigit_ne (hd.2 c (List.mem_reverse.mp hc))).2.2.2.2])]
        simp [List.takeWhile_cons]
      rw [hmem, hrun]
      simp only [if_true]
      rw [if_pos ⟨hd.1, List.all_eq_true.mpr (fun c hc => hd.2 c hc)⟩]
      simp [portVal]
  have hsnd : (getUrl (schemePart https ++ "://".toList ++ host ++ portPart pd
        ++ "/conn".toList) dsid needsAuth authTok none).2
      = (urlPort (getUrl (schemePart https ++ "://".toList ++ host ++ portPart pd
          ++ "/conn".toList) dsid needsAuth authTok none).1).getD 80 := rfl
  refine Prod.ext ?_ ?_
  · rw [huri]
  · rw [hsnd, huri, hport]

/-- Witness for the amended C6 at a concrete https broker with an explicit
port, authentication required, and no access token. -/
theorem getUrl_amended_witness :
    getUrl "https://broker.example:8080/conn".toList "dev".toList true "tok".toList none
      = ("wss://broker.example:8080/ws?dsId=dev&auth=tok".toList, 8080) := by
  have harg : ("https://broker.example:8080/conn".toList : Str)
      = schemePart true ++ "://".toList ++ "broker.example".toList
        ++ portPart (some "8080".toList) ++ "/conn".toList := by decide
  rw [harg]
  have h := getUrl_amended true "broker.example".toList "dev".toList "tok".toList true
    (some "8080".toList) (by decide) (by decide)
    (fun d hd => by
      injection hd with h2
      subst h2
      exact ⟨by decide, by decide⟩)
  exact h.trans (by decide)

theorem idxOf?_eq_none {p : Char → Bool} :
    ∀ {l : Str}, (∀ c ∈ l, p c = false) → idxOf? p l = none
  | [], _ => rfl
  | c :: rest, h => by
    simp only [idxOf?, h c (by simp), Bool.false_eq_true, if_false]
    rw [idxOf?_eq_none (fun x hx => h x (by simp [hx]))]
    rfl

theorem idxOf?_append_none {p : Char → Bool} :
    ∀ {a : Str} (b : Str), (∀ c ∈ a, p c = false) →
      idxOf? p (a ++ b) = (idxOf? p b).map (fun i => i + a.length)
  | [], b, _ => by
    cases hb : idxOf? p b <;> simp [hb]
  | c :: rest, b, h => by
    have hr : idxOf? p (rest ++ b) = (idxOf? p b).map (fun i => i + rest.length) :=
      idxOf?_append_none b (fun x hx => h x (by simp [hx]))
    show idxOf? p (c :: (rest ++ b)) = _
    simp only [idxOf?, h c (by simp), Bool.false_eq_true, if_false]
    rw [hr]
    cases hb : idxOf? p b with
    | none => simp
    | some j => simp; omega

/-- C8: `get` resolves `"/"` and any `/$`- or `/@`-prefixed path to the node
itself; otherwise the first path segment names a child — recursing with the
remaining path when more segments follow — and a missing child yields `none`
(the caught-and-logged `KeyError`), never an error. -/
theorem get_resolution (n : Node) :
    n.get ['/'] = some n ∧
    (∀ rest : Str, n.get ('/' :: '$' :: rest) = some n) ∧
    (∀ rest : Str, n.get ('/' :: '@' :: rest) = some n) ∧
    (∀ seg rest : Str, seg ≠ [] → '/' ∉ seg →
      (∀ hd, seg.head? = some hd → hd ≠ '$' ∧ hd ≠ '@') →
      ((n.children.find? (fun c => decide (c.name = seg)) = none →
          n.get ('/' :: (seg ++ '/' :: rest)) = none) ∧
        (∀ c, n.children.find? (fun c => decide (c.name = seg)) = some c →
          n.get ('/' :: (seg ++ '/' :: rest)) = c.get ('/' :: rest)))) ∧
    (∀ seg : Str, seg ≠ [] → '/' ∉ seg →
      (∀ hd, seg.head? = some hd → hd ≠ '$' ∧ hd ≠ '@') →
      ((n.children.find? (fun c => decide (c.name = seg)) = none →
          n.get ('/' :: seg) = none) ∧
        (∀ c, n.children.find? (fun c => decide (c.name = seg)) = some c →
          n.get ('/' :: seg) = some c))) := by
  refine ⟨by unfold Node.get; simp, ?_, ?_, ?_, ?_⟩
  · intro rest
    unfold Node.get
    simp [List.isPrefixOf]
  · intro rest
    unfold Node.get
    rw [if_neg (by simp), if_neg (by simp [List.isPrefixOf]), if_pos (by simp [List.isPrefixOf])]
  · intro seg rest hne hslash hhd
    obtain ⟨hd, seg2, rfl⟩ : ∃ hd seg2, seg = hd :: seg2 := by
      cases seg with
      | nil => exact absurd rfl hne
      | cons hd seg2 => exact ⟨hd, seg2, rfl⟩
    have hhd2 := hhd hd (by simp)
    have hfind : findFrom '/' ('/' :: ((hd :: seg2) ++ '/' :: rest)) 2
        = some (seg2.length + 2) := by
      unfold findFrom
      have hdrop : ('/' :: ((hd :: seg2) ++ '/' :: rest)).drop 2 = seg2 ++ '/' :: rest := by
        simp
      rw [hdrop, idxOf?_append_none ('/' :: rest) (fun c hc => by
        simp only [decide_eq_false_iff_not]
        intro he
        subst he
        exact hslash (List.mem_cons_of_mem _ hc))]
      have h0 : idxOf? (fun x => decide (x = '/')) ('/' :: rest) = some 0 := by
        simp [idxOf?]
      rw [h0]
      simp
      omega
    have hsegA : List.take (seg2.length + 2 - 1) (hd :: (seg2 ++ '/' :: rest))
        = hd :: seg2 := by
      have h21 : seg2.length + 2 - 1 = seg2.length + 1 := by omega
      rw [h21, List.take_succ_cons]
      have := List.take_left seg2 ('/' :: rest)
      rw [this]
    have hdropiA : List.drop (seg2.length + 2) ('/' :: hd :: (seg2 ++ '/' :: rest))
        = '/' :: rest := by
      show List.drop (seg2.length + 1 + 1) ('/' :: hd :: (seg2 ++ '/' :: rest)) = _
      rw [List.drop_succ_cons, List.drop_succ_cons]
      exact List.drop_left _ _
    constructor
    · intro hnone
      unfold Node.get
      rw [if_neg (by simp), if_neg (by simp; exact fun he => hhd2.1 he.symm),
        if_neg (by simp; exact fun he => hhd2.2 he.symm)]
      split
      next i heq =>
        rw [hfind] at heq
        injection heq with heq2
        subst heq2
        simp only [List.drop_one, List.tail_cons, List.cons_append, hsegA, hnone]
      next heq =>
        rw [hfind] at heq
        cases heq
    · intro c hsome
      generalize hX : c.get ('/' :: rest) = X
      unfold Node.get
      rw [if_neg (by simp), if_neg (by simp; exact fun he => hhd2.1 he.symm),
        if_neg (by simp; exact fun he => hhd2.2 he.symm)]
      split
      next i heq =>
        rw [hfind] at heq
        injection heq with heq2
        subst heq2
        simp only [List.drop_one, List.tail_cons, List.cons_append, hsegA, hsome, hdropiA]
        exact hX
      next heq =>
        rw [hfind] at heq
        cases heq
  · intro seg hne hslash hhd
    obtain ⟨hd, seg2, rfl⟩ : ∃ hd seg2, seg = hd :: seg2 := by
      cases seg with
      | nil => exact absurd rfl hne
      | cons hd seg2 => exact ⟨hd, seg2, rfl⟩
    have hhd2 := hhd hd (by simp)
    have hfind : findFrom '/' ('/' :: hd :: seg2) 2 = none := by
      unfold findFrom
      have hdrop : ('/' :: hd :: seg2).drop 2 = seg2 := by simp
      rw [hdrop, idxOf?_eq_none (fun c hc => by
        simp only [decide_eq_false_iff_not]
        intro he
        subst he
        exact hslash (List.mem_cons_of_mem _ hc))]
      rfl
    have hne1 : ('/' :: hd :: seg2) ≠ ['/'] := by simp
    constructor
    · intro hnone
      unfold Node.get
      rw [if_neg hne1, if_neg (by simp; exact fun he => hhd2.1 he.symm),
        if_neg (by simp; exact fun he => hhd2.2 he.symm)]
      split
      next i heq =>
        rw [hfind] at heq
        cases heq
      next heq =>
        simp only [List.drop_one, List.tail_cons, hnone]
    · intro c hsome
      unfold Node.get
      rw [if_neg hne1, if_neg (by simp; exact fun he => hhd2.1 he.symm),
        if_neg (by simp; exact fun he => hhd2.2 he.symm)]
      split
      next i heq =>
        rw [hfind] at heq
        cases heq
      next heq =>
        simp only [List.drop_one, List.tail_cons, hsome]

/-- Witness for C8 on a two-level concrete structure. -/
theorem get_resolution_witness :
    sampleParent.get "/".toList = some sampleParent ∧
    sampleParent.get "/$is".toList = some sampleParent ∧
    sampleParent.get "/@x".toList = some sampleParent ∧
    sampleParent.get "/v/c".toList = sampleValued.get "/c".toList ∧
    sampleParent.get "/zz".toList = none := by
  have h := get_resolution sampleParent
  refine ⟨h.1, h.2.1 "$is".toList.tail, ?_, ?_, ?_⟩
  · exact h.2.2.1 "@x".toList.tail
  · exact (h.2.2.2.1 ['v'] ['c'] (by decide) (by decide)
      (fun hd hh => by injection hh with h2; subst h2; exact ⟨by decide, by decide⟩)).2
      sampleValued rfl
  · exact (h.2.2.2.2 "zz".toList (by decide) (by decide)
      (fun hd hh => by injection hh with h2; subst h2; exact ⟨by decide, by decide⟩)).1 rfl

/-! ### Serializer round-trip machinery (C7) -/

theorem shapeAll_eq (m : Node) :
    shapeAll m = Shape.mk m.name m.config m.attributes (shapesAll m.children) := by
  cases m
  rfl

theorem shapeNT_eq (m : Node) :
    shapeNT m = Shape.mk m.name m.config m.attributes (shapesNT m.children) := by
  cases m
  rfl

theorem shapesAll_append : ∀ (l1 l2 : List Node),
    shapesAll (l1 ++ l2) = shapesAll l1 ++ shapesAll l2
  | [], l2 => rfl
  | c :: cs, l2 => by
    show shapeAll c :: shapesAll (cs ++ l2) = shapeAll c :: (shapesAll cs ++ shapesAll l2)
    rw [shapesAll_append cs l2]

theorem shapesNT_eq_map : ∀ ch : List Node, shapesNT ch = (ntChildren ch).map shapeNT
  | [] => rfl
  | c :: cs => by
    by_cases h : c.transient = true
    · simp only [shapesNT, h, if_true, ntChildren, List.filter_cons, Bool.not_eq_true',
        h, Bool.not_true]
      simpa [ntChildren] using shapesNT_eq_map cs
    · have hf : c.transient = false := by
        cases hc : c.transient
        · rfl
        · exact absurd hc h
      simp only [shapesNT, hf, Bool.false_eq_true, if_false, ntChildren, List.filter_cons,
        hf, Bool.not_false, List.map_cons]
      simpa [ntChildren] using shapesNT_eq_map cs

theorem childJsonEntries_eq_map : ∀ ch : List Node,
    childJsonEntries ch = (ntChildren ch).map (fun c => (c.name, c.toJson))
  | [] => rfl
  | c :: cs => by
    by_cases h : c.transient = true
    · simp only [childJsonEntries, h, if_true, ntChildren, List.filter_cons, h,
        Bool.not_true]
      simpa [ntChildren] using childJsonEntries_eq_map cs
    · have hf : c.transient = false := by
        cases hc : c.transient
        · rfl
        · exact absurd hc h
      simp only [childJsonEntries, hf, Bool.false_eq_true, if_false, ntChildren,
        List.filter_cons, hf, Bool.not_false, List.map_cons]
      simpa [ntChildren] using childJsonEntries_eq_map cs

theorem wfChildren_mem : ∀ {ch : List Node}, wfChildren ch = true →
    ∀ c ∈ ch, c.transient = false → wfNode c = true
  | [], _, c, hc, _ => by simp at hc
  | c0 :: cs, h, c, hc, ht => by
    rw [wfChildren, Bool.and_eq_true] at h
    rcases List.mem_cons.mp hc with rfl | hm
    · rcases Bool.or_eq_true_iff.mp h.1 with h1 | h1
      · rw [ht] at h1
        cases h1
      · exact h1
    · exact wfChildren_mem h.2 c hm ht

theorem sizeOf_mem_children {c : Node} {d : NodeData} {ch r : List Node}
    (h : c ∈ ch) : sizeOf c < sizeOf (Node.mk d ch r) := by
  have h1 : sizeOf c < sizeOf ch := List.sizeOf_lt_of_mem h
  simp only [Node.mk.sizeOf_spec]
  omega

theorem setConfig_fields (n : Node) (k : Str) (v : JVal) :
    (n.setConfig k v).config = dinsert k v n.config ∧
    (n.setConfig k v).attributes = n.attributes ∧
    (n.setConfig k v).children = n.children ∧
    (n.setConfig k v).name = n.name ∧ (n.setConfig k v).path = n.path := by
  cases n
  exact ⟨rfl, rfl, rfl, rfl, rfl⟩

theorem setAttribute_fields (n : Node) (k : Str) (v : JVal) :
    (n.setAttribute k v).attributes = dinsert k v n.attributes ∧
    (n.setAttribute k v).config = n.config ∧
    (n.setAttribute k v).children = n.children ∧
    (n.setAttribute k v).name = n.name ∧ (n.setAttribute k v).path = n.path := by
  cases n
  exact ⟨rfl, rfl, rfl, rfl, rfl⟩

theorem setType_fields (n : Node) (t : JVal) :
    (n.setType t).config = dinsert "$type".toList t n.config ∧
    (n.setType t).attributes = n.attributes ∧
    (n.setType t).children = n.children ∧
    (n.setType t).name = n.name ∧ (n.setType t).path = n.path := by
  cases n
  exact ⟨rfl, rfl, rfl, rfl, rfl⟩

theorem toJson_mk (d : NodeData) (ch r : List Node) :
    (Node.mk d ch r).toJson
      = JVal.obj (((d.config ++ d.attributes) ++ childJsonEntries ch).foldl
          (fun acc p => dinsert p.1 p.2 acc) []) := by
  rw [Node.toJson]

theorem fromJson_obj (fields : List (Str × JVal)) (p nm : Str) :
    fromJson (JVal.obj fields) p nm = fromJsonFields fields (newNode nm p) := by
  rw [fromJson]

theorem isPrefixOf_single_iff (c : Char) (k : Str) :
    ([c].isPrefixOf k = true) ↔ ∃ k2, k = c :: k2 := by
  cases k with
  | nil => simp [List.isPrefixOf]
  | cons hd tl =>
    constructor
    · intro h
      simp [List.isPrefixOf] at h
      exact ⟨tl, by simp [h]⟩
    · intro ⟨k2, hk⟩
      injection hk with h1 h2
      subst h1
      simp [List.isPrefixOf]

/-- Processing a run of `$`-keys: each is routed to the config map (via
`set_type` for `$type`, `set_config` otherwise), leaving the rest of the node
untouched. -/
theorem fromJsonFields_config_phase :
    ∀ (fields rest : List (Str × JVal)) (node : Node),
      (∀ k ∈ keysOf fields, ['$'].isPrefixOf k = true) →
      ∃ node2, fromJsonFields (fields ++ rest) node = fromJsonFields rest node2 ∧
        node2.config = fields.foldl (fun acc p => dinsert p.1 p.2 acc) node.config ∧
        node2.attributes = node.attributes ∧ node2.children = node.children ∧
        node2.name = node.name ∧ node2.path = node.path
  | [], rest, node, _ => ⟨node, rfl, rfl, rfl, rfl, rfl, rfl⟩
  | (k, v) :: fields2, rest, node, h => by
    have hk : ['$'].isPrefixOf k = true := h k (by simp [keysOf])
    have hrest : ∀ k2 ∈ keysOf fields2, ['$'].isPrefixOf k2 = true := by
      intro k2 hk2
      exact h k2 (by rw [keysOf_cons]; exact List.mem_cons_of_mem _ hk2)
    by_cases ht : k = "$type".toList
    · subst ht
      obtain ⟨node2, he, hc, ha, hch, hn, hp⟩ :=
        fromJsonFields_config_phase fields2 rest (node.setType v) hrest
      have hf := setType_fields node v
      refine ⟨node2, ?_, ?_, ?_, ?_, ?_, ?_⟩
      · rw [List.cons_append, fromJsonFields, if_pos hk, if_pos rfl]
        exact he
      · rw [hc, List.foldl_cons, hf.1]
      · rw [ha, hf.2.1]
      · rw [hch, hf.2.2.1]
      · rw [hn, hf.2.2.2.1]
      · rw [hp, hf.2.2.2.2]
    · obtain ⟨node2, he, hc, ha, hch, hn, hp⟩ :=
        fromJsonFields_config_phase fields2 rest (node.setConfig k v) hrest
      have hf := setConfig_fields node k v
      refine ⟨node2, ?_, ?_, ?_, ?_, ?_, ?_⟩
      · rw [List.cons_append, fromJsonFields, if_pos hk, if_neg ht]
        exact he
      · rw [hc, List.foldl_cons, hf.1]
      · rw [ha, hf.2.1]
      · rw [hch, hf.2.2.1]
      · rw [hn, hf.2.2.2.1]
      · rw [hp, hf.2.2.2.2]

/-- Processing a run of `@`-keys: each is routed to the attribute map. -/
theorem fromJsonFields_attr_phase :
    ∀ (fields rest : List (Str × JVal)) (node : Node),
      (∀ k ∈ keysOf fields, ['@'].isPrefixOf k = true) →
      ∃ node2, fromJsonFields (fields ++ rest) node = fromJsonFields rest node2 ∧
        node2.attributes = fields.foldl (fun acc p => dinsert p.1 p.2 acc) node.attributes ∧
        node2.config = node.config ∧ node2.children = node.children ∧
        node2.name = node.name ∧ node2.path = node.path
  | [], rest, node, _ => ⟨node, rfl, rfl, rfl, rfl, rfl, rfl⟩
  | (k, v) :: fields2, rest, node, h => by
    have hk : ['@'].isPrefixOf k = true := h k (by simp [keysOf])
    obtain ⟨k2, rfl⟩ := (isPrefixOf_single_iff '@' k).mp hk
    have hnotd : (['$'].isPrefixOf ('@' :: k2)) = false := by
      simp [List.isPrefixOf]
    have hrest : ∀ k3 ∈ keysOf fields2, ['@'].isPrefixOf k3 = true := by
      intro k3 hk3
      exact h k3 (by rw [keysOf_cons]; exact List.mem_cons_of_mem _ hk3)
    obtain ⟨node2, he, ha, hc, hch, hn, hp⟩ :=
      fromJsonFields_attr_phase fields2 rest (node.setAttribute ('@' :: k2) v) hrest
    have hf := setAttribute_fields node ('@' :: k2) v
    refine ⟨node2, ?_, ?_, ?_, ?_, ?_, ?_⟩
    · rw [List.cons_append, fromJsonFields, if_neg (by simp [hnotd]), if_pos hk]
      exact he
    · rw [ha, List.foldl_cons, hf.1]
    · rw [hc, hf.2.1]
    · rw [hch, hf.2.2.1]
    · rw [hn, hf.2.2.2.1]
    · rw [hp, hf.2.2.2.2]

theorem newNode_fields (nm p : Str) :
    (newNode nm p).config = [("$is".toList, JVal.str "node".toList)] ∧
    (newNode nm p).attributes = [] ∧ (newNode nm p).children = [] ∧
    (newNode nm p).name = nm ∧ (newNode nm p).path = childPath p nm :=
  ⟨rfl, rfl, rfl, rfl, rfl⟩

theorem addChild_not_mem {n c : Node} (h : c.name ∉ n.children.map Node.name) :
    n.addChild c = some (n.withChildren (n.children ++ [c])) := by
  unfold Node.addChild
  rw [if_neg]
  simp only [List.contains, List.elem_eq_mem]
  exact fun hc => h (of_decide_eq_true hc)

/-- Processing the child entries: each is deserialized with `from_json` and
attached with `add_child`, appending to the children in order. -/
theorem fromJsonFields_children_phase :
    ∀ (cs : List Node) (node : Node),
      (∀ c ∈ cs, ∀ p2 : Str, ∃ m, fromJson c.toJson p2 c.name = some m ∧
        shapeAll m = shapeNT c ∧ m.name = c.name) →
      (∀ c ∈ cs, (['$'].isPrefixOf c.name) = false ∧ (['@'].isPrefixOf c.name) = false) →
      ((cs.map Node.name).Nodup) →
      (∀ c ∈ cs, c.name ∉ node.children.map Node.name) →
      ∃ node2, fromJsonFields (cs.map (fun c => (c.name, c.toJson))) node = some node2 ∧
        node2.name = node.name ∧ node2.config = node.config ∧
        node2.attributes = node.attributes ∧
        shapesAll node2.children = shapesAll node.children ++ cs.map shapeNT
  | [], node, _, _, _, _ => ⟨node, rfl, rfl, rfl, rfl, by simp⟩
  | c :: cs2, node, hIH, hpre, hnd, hmem => by
    obtain ⟨m, hm, hshape, hname⟩ := hIH c (by simp) node.path
    have hc0 := hpre c (by simp)
    have haddc : node.addChild m = some (node.withChildren (node.children ++ [m])) :=
      addChild_not_mem (by rw [hname]; exact hmem c (by simp))
    have hstep : fromJsonFields ((c :: cs2).map (fun c => (c.name, c.toJson))) node
        = fromJsonFields (cs2.map (fun c => (c.name, c.toJson)))
            (node.withChildren (node.children ++ [m])) := by
      rw [List.map_cons, fromJsonFields, if_neg (by simp [hc0.1]),
        if_neg (by simp [hc0.2])]
      simp only [hm, haddc]
    rw [List.map_cons] at hnd
    have hnd2 := List.nodup_cons.mp hnd
    have hmem2 : ∀ c2 ∈ cs2,
        c2.name ∉ (node.withChildren (node.children ++ [m])).children.map Node.name := by
      intro c2 hc2 hinm
      rw [Node.children_withChildren, List.map_append] at hinm
      rcases List.mem_append.mp hinm with hold | hnew
      · exact hmem c2 (List.mem_cons_of_mem _ hc2) hold
      · have : c2.name = c.name := by simpa [hname] using hnew
        exact hnd2.1 (this ▸ List.mem_map_of_mem Node.name hc2)
    obtain ⟨node2, he2, hn2, hcfg2, ha2, hs2⟩ :=
      fromJsonFields_children_phase cs2 (node.withChildren (node.children ++ [m]))
        (fun c2 hc2 => hIH c2 (List.mem_cons_of_mem _ hc2))
        (fun c2 hc2 => hpre c2 (List.mem_cons_of_mem _ hc2)) hnd2.2 hmem2
    refine ⟨node2, hstep.trans he2, ?_, ?_, ?_, ?_⟩
    · rw [hn2]
      simp [Node.name]
    · rw [hcfg2]
      simp [Node.config]
    · rw [ha2]
      simp [Node.attributes]
    · rw [hs2, Node.children_withChildren, shapesAll_append]
      show shapesAll node.children ++ shapesAll [m] ++ _ = _
      have : shapesAll [m] = [shapeNT c] := by
        show [shapeAll m] = [shapeNT c]
        rw [hshape]
      rw [this, List.map_cons, List.append_assoc]
      rfl

theorem keysOf_child_entries (ch : List Node) :
    keysOf ((ntChildren ch).map (fun c => (c.name, c.toJson)))
      = (ntChildren ch).map Node.name := by
  simp [keysOf, List.map_map]

/-- Under the serializer invariants the successive dict assignments of
`to_json` never collide, so the object is the plain concatenation: every
config entry, every attribute entry, and one entry per non-transient child;
transient children contribute nothing. -/
theorem toJson_flat (n : Node) (hwf : wfNode n = true) :
    n.toJson = JVal.obj (n.config ++ n.attributes
      ++ (ntChildren n.children).map (fun c => (c.name, c.toJson))) := by
  cases n with
  | mk d ch r =>
    rw [wfNode] at hwf
    simp only [Bool.and_eq_true] at hwf
    obtain ⟨⟨⟨⟨⟨⟨⟨hA, hB⟩, hC⟩, hD⟩, hE⟩, hF⟩, hG⟩, _⟩ := hwf
    have hB' : ∀ k2 ∈ keysOf d.config, ['$'].isPrefixOf k2 = true := by
      intro k2 hk2
      exact List.all_eq_true.mp hB k2 hk2
    have hC' : (keysOf d.config).Nodup := of_decide_eq_true hC
    have hD' : ∀ k2 ∈ keysOf d.attributes, ['@'].isPrefixOf k2 = true := by
      intro k2 hk2
      exact List.all_eq_true.mp hD k2 hk2
    have hE' : (keysOf d.attributes).Nodup := of_decide_eq_true hE
    have hF' : ∀ c ∈ ntChildren ch,
        (['$'].isPrefixOf c.name) = false ∧ (['@'].isPrefixOf c.name) = false := by
      intro c hc
      have := List.all_eq_true.mp hF c hc
      simp only [Bool.and_eq_true, Bool.not_eq_true'] at this
      exact this
    have hG' : ((ntChildren ch).map Node.name).Nodup := of_decide_eq_true hG
    have hkeys : (keysOf ((d.config ++ d.attributes)
        ++ (ntChildren ch).map (fun c => (c.name, c.toJson)))).Nodup := by
      rw [keysOf_append, keysOf_append, keysOf_child_entries]
      rw [List.append_assoc, List.nodup_append]
      refine ⟨hC', ?_, ?_⟩
      · rw [List.nodup_append]
        refine ⟨hE', hG', ?_⟩
        · intro k2 hk2 hk3
          obtain ⟨x, hx⟩ := (isPrefixOf_single_iff '@' k2).mp (hD' k2 hk2)
          obtain ⟨c, hc, hcn⟩ := List.mem_map.mp hk3
          have hne := (hF' c hc).2
          rw [hcn, hx] at hne
          simp [List.isPrefixOf] at hne
      · intro k2 hk2 hk3
        obtain ⟨x, hx⟩ := (isPrefixOf_single_iff '$' k2).mp (hB' k2 hk2)
        rcases List.mem_append.mp hk3 with hka | hkc
        · obtain ⟨y, hy⟩ := (isPrefixOf_single_iff '@' k2).mp (hD' k2 hka)
          rw [hx] at hy
          injection hy with hy1
          cases hy1
        · obtain ⟨c, hc, hcn⟩ := List.mem_map.mp hkc
          have hne := (hF' c hc).1
          rw [hcn, hx] at hne
          simp [List.isPrefixOf] at hne
    rw [toJson_mk, childJsonEntries_eq_map]
    rw [foldl_dinsert_fresh (childJsonEntries_eq_map ch ▸ hkeys) (by
      intro k2 _ hk2
      simp [keysOf] at hk2)]
    simp
    rfl

/-- The serializer round trip, by strong induction on the node size. -/
theorem roundtrip_aux : ∀ (k : Nat) (n : Node), sizeOf n ≤ k → wfNode n = true →
    ∀ p : Str, ∃ m, fromJson n.toJson p n.name = some m ∧ shapeAll m = shapeNT n ∧
      m.name = n.name := by
  intro k
  induction k with
  | zero =>
    intro n hsz
    exfalso
    cases n with
    | mk d ch r =>
      simp [Node.mk.sizeOf_spec] at hsz
  | succ k ih =>
    intro n hsz hwf p
    cases n with
    | mk d ch r =>
      have hJson := toJson_flat (Node.mk d ch r) hwf
      simp only [Node.config, Node.attributes, Node.children, Node.data_mk,
        Node.children_mk] at hJson
      rw [wfNode] at hwf
      simp only [Bool.and_eq_true] at hwf
      obtain ⟨⟨⟨⟨⟨⟨⟨hA, hB⟩, hC⟩, hD⟩, hE⟩, hF⟩, hG⟩, hH⟩ := hwf
      have hA' := of_decide_eq_true hA
      have hB' : ∀ k2 ∈ keysOf d.config, ['$'].isPrefixOf k2 = true := by
        intro k2 hk2
        exact List.all_eq_true.mp hB k2 hk2
      have hC' : (keysOf d.config).Nodup := of_decide_eq_true hC
      have hD' : ∀ k2 ∈ keysOf d.attributes, ['@'].isPrefixOf k2 = true := by
        intro k2 hk2
        exact List.all_eq_true.mp hD k2 hk2
      have hE' : (keysOf d.attributes).Nodup := of_decide_eq_true hE
      have hF' : ∀ c ∈ ntChildren ch,
          (['$'].isPrefixOf c.name) = false ∧ (['@'].isPrefixOf c.name) = false := by
        intro c hc
        have := List.all_eq_true.mp hF c hc
        simp only [Bool.and_eq_true, Bool.not_eq_true'] at this
        exact this
      have hG' : ((ntChildren ch).map Node.name).Nodup := of_decide_eq_true hG
      -- config head is the seeded $is entry
      obtain ⟨v0, cfgrest, hcfg⟩ : ∃ v0 cfgrest, d.config = ("$is".toList, v0) :: cfgrest := by
        cases hdc : d.config with
        | nil => rw [hdc] at hA'; simp at hA'
        | cons p0 rest =>
          obtain ⟨k0, v0⟩ := p0
          rw [hdc] at hA'
          simp at hA'
          refine ⟨v0, rest, ?_⟩
          rw [hA']
          rw [show ("$is".toList : Str) = ['$', 'i', 's'] from by decide]
      -- phase 1: the config keys
      obtain ⟨node1, he1, hc1, ha1, hch1, hn1, hp1⟩ :=
        fromJsonFields_config_phase d.config
          (d.attributes ++ (ntChildren ch).map (fun c => (c.name, c.toJson)))
          (newNode (Node.mk d ch r).name p) hB'
      have hc1' : node1.config = d.config := by
        rw [hc1, (newNode_fields _ _).1, hcfg]
        have hstep1 : dinsert "$is".toList v0 [("$is".toList, JVal.str "node".toList)]
            = [("$is".toList, v0)] := by
          simp [dinsert]
        rw [List.foldl_cons, hstep1]
        rw [hcfg, keysOf_cons] at hC'
        have hnd := List.nodup_cons.mp hC'
        rw [foldl_dinsert_fresh hnd.2 (by
          intro k2 hk2
          simp only [keysOf, List.map_cons, List.map_nil, List.mem_singleton]
          intro he
          exact hnd.1 (he ▸ hk2))]
        rfl
      -- phase 2: the attribute keys
      obtain ⟨node2, he2, ha2, hc2, hch2, hn2, hp2⟩ :=
        fromJsonFields_attr_phase d.attributes
          ((ntChildren ch).map (fun c => (c.name, c.toJson))) node1 hD'
      have ha2' : node2.attributes = d.attributes := by
        rw [ha2, ha1, (newNode_fields _ _).2.1]
        rw [foldl_dinsert_fresh hE' (by
          intro k2 _ hk2
          simp [keysOf] at hk2)]
        rfl
      have hch2' : node2.children = [] := by
        rw [hch2, hch1, (newNode_fields _ _).2.2.1]
      -- phase 3: the child entries
      obtain ⟨node3, he3, hn3, hc3, ha3, hs3⟩ :=
        fromJsonFields_children_phase (ntChildren ch) node2
          (by
            intro c hc p2
            have hctr : c.transient = false := by
              have := List.mem_filter.mp hc
              simpa using this.2
            have hcm : c ∈ ch := List.mem_of_mem_filter hc
            have hsc : sizeOf c ≤ k := by
              have := sizeOf_mem_children (d := d) (r := r) hcm
              omega
            exact ih c hsc (wfChildren_mem hH c hcm hctr) p2)
          hF' hG'
          (by
            intro c _
            rw [hch2']
            simp)
      refine ⟨node3, ?_, ?_, ?_⟩
      · rw [hJson, fromJson_obj, List.append_assoc, he1, he2, he3]
      · rw [shapeAll_eq, shapeNT_eq]
        rw [hn3, hn2, hn1, (newNode_fields _ _).2.2.2.1]
        rw [hc3, hc2, hc1', ha3, ha2']
        rw [hs3, hch2']
        show Shape.mk _ _ _ ([] ++ (ntChildren ch).map shapeNT) = _
        rw [List.nil_append, ← shapesNT_eq_map]
        have hchn : (Node.mk d ch r).children = ch := rfl
        rw [hchn]
        have hcfgn : (Node.mk d ch r).config = d.config := rfl
        have hattn : (Node.mk d ch r).attributes = d.attributes := rfl
        rw [hcfgn, hattn]
      · rw [hn3, hn2, hn1, (newNode_fields _ _).2.2.2.1]

/-- C7: under the data-model invariants (`wfNode`: `$`-namespaced distinct
config keys headed by the constructor's `$is` entry, `@`-namespaced distinct
attribute keys, distinct non-namespaced non-transient child names, recursively),
`to_json` emits every config entry, every attribute entry and one recursively
serialized entry per non-transient child — transient subtrees are fully
absent — and `from_json` of that output rebuilds the config, attributes and
non-transient child structure exactly (`shapeAll`/`shapeNT` compare name,
config, attributes and child structure; value payloads, flags and transient
subtrees are outside the round trip). -/
theorem to_from_json_roundtrip (n : Node) (h : wfNode n = true) :
    n.toJson = JVal.obj (n.config ++ n.attributes
      ++ (ntChildren n.children).map (fun c => (c.name, c.toJson)))
    ∧ ∀ p : Str, (fromJson n.toJson p n.name).map shapeAll = some (shapeNT n) := by
  refine ⟨toJson_flat n h, fun p => ?_⟩
  obtain ⟨m, hm, hs, _⟩ := roundtrip_aux (sizeOf n) n le_rfl h p
  rw [hm]
  simp [hs]

/-- A well-formed node with one transient and one live child. -/
def sampleWf : Node := Node.mk
  { name := ['w'], path := "/w".toList, standalone := false, transient := false,
    value := TValue.empty,
    config := [("$is".toList, JVal.str "node".toList),
               ("$type".toList, JVal.str "int".toList)],
    attributes := [("@a".toList, JVal.int 1)], subscribers := [], streams := [] }
  [samplePlain,
   Node.mk
    { name := ['t'], path := "/w/t".toList, standalone := false, transient := true,
      value := TValue.empty, config := [], attributes := [], subscribers := [],
      streams := [] } [] []]
  []

/-- Witness for C7: the transient child is absent from the serialized form,
and the round trip restores the non-transient structure. -/
theorem to_from_json_roundtrip_witness :
    wfNode sampleWf = true ∧
    sampleWf.toJson = JVal.obj
      [("$is".toList, JVal.str "node".toList),
       ("$type".toList, JVal.str "int".toList),
       ("@a".toList, JVal.int 1),
       (['p'], JVal.obj [("$is".toList, JVal.str "node".toList)])] ∧
    (fromJson sampleWf.toJson [] sampleWf.name).map shapeAll = some (shapeNT sampleWf) := by
  have h := to_from_json_roundtrip sampleWf (by decide)
  exact ⟨by decide, h.1.trans (by decide), h.2 []⟩

end DSLinkPy
